import Mathlib

/-!
Verification of the battery_analyzer core (cycle data container, loaders,
analysis routines) against its natural-language specification.

The Python source is shallowly embedded: DataFrames of the per-cycle record
table become lists of rows over ℚ (columns TimeMin, Vol, Crate), pandas
operations become explicit list functions, and raised exceptions become
Except values whose error payloads carry the identifiers the exception
message names.
-/

namespace BattAnalyzer

/-- One sample row of a Cycle Record Table: elapsed time in minutes (TimeMin),
voltage in volts (Vol), and signed C-rate current (Crate, negative =
discharge, positive = charge). Temperature is optional in the source and not
used by any routine verified here. -/
structure Row where
  timeMin : ℚ
  vol : ℚ
  crate : ℚ
deriving Repr, DecidableEq, Inhabited

/-- A cycle record table: the ordered rows of one DataFrame. -/
abbrev Table := List Row

/-- Capacity-basis mode from config (CapacityConfig.mode / manual_capacity):
either a manual capacity value or auto-detect mode. -/
inductive CapacityMode where
  | manual (manualCapacity : ℚ)
  | autoCrate
deriving Repr, DecidableEq

/-- The capacity basis used by the analyzer capacity routines: the manual
value in manual mode, else the fixed default 58.0
(individual.py lines 127-130, base_analyzer.py lines 117-121). -/
def capacityBase : CapacityMode → ℚ
  | .manual v => v
  | .autoCrate => 58

/-- Consecutive differences against a running previous value: models the tail
of pandas Series.diff() (the first element's NaN is handled by the caller). -/
def diffAux : ℚ → List ℚ → List ℚ
  | _, [] => []
  | prev, x :: xs => (x - prev) :: diffAux x xs

/-- pandas df["TimeMin"].diff().fillna(0): first element 0, then consecutive
differences. -/
def timeDiffs (l : List ℚ) : List ℚ :=
  match l with
  | [] => []
  | t :: ts => 0 :: diffAux t ts

/-- Each row of a table paired with its whole-table TimeDiff
(df["TimeDiff"] = df["TimeMin"].diff().fillna(0), computed before any
charge/discharge split). -/
def withTimeDiff (df : Table) : List (Row × ℚ) :=
  df.zip (timeDiffs (df.map Row.timeMin))

/-- Result dict of IndividualCycleAnalyzer._calculate_cycle_capacity
(keys discharge_capacity, charge_capacity, efficiency). -/
structure CapacityResult where
  discharge_capacity : ℚ
  charge_capacity : ℚ
  efficiency : ℚ
deriving Repr, DecidableEq

/-- IndividualCycleAnalyzer._calculate_cycle_capacity (individual.py lines
114-151; duplicated verbatim in linked.py and reliability.py): TimeDiff over
the whole table, discharge rows Crate < 0 summed as abs(Crate * TimeDiff),
charge rows Crate > 0 summed as Crate * TimeDiff, both times the capacity
basis; efficiency = discharge/charge*100 if charge_capacity > 0 else 0. -/
def calculate_cycle_capacity (mode : CapacityMode) (df : Table) : CapacityResult :=
  let rows := withTimeDiff df
  let base := capacityBase mode
  let dis := rows.filter (fun rc => decide (rc.1.crate < 0))
  let discharge_capacity := ((dis.map (fun rc => |rc.1.crate * rc.2|)).sum) * base
  let ch := rows.filter (fun rc => decide (0 < rc.1.crate))
  let charge_capacity := ((ch.map (fun rc => rc.1.crate * rc.2)).sum) * base
  let efficiency :=
    if 0 < charge_capacity then discharge_capacity / charge_capacity * 100 else 0
  ⟨discharge_capacity, charge_capacity, efficiency⟩

/-- BaseAnalyzer.get_capacity (base_analyzer.py lines 95-125): discharge
capacity only, whole-table TimeDiff, early 0.0 when there are no discharge
rows. -/
def get_capacity (mode : CapacityMode) (df : Table) : ℚ :=
  let rows := withTimeDiff df
  let dis := rows.filter (fun rc => decide (rc.1.crate < 0))
  if dis.isEmpty then 0
  else ((dis.map (fun rc => |rc.1.crate * rc.2|)).sum) * capacityBase mode

/-- Claim-side reading of the per-cycle capacity integral (claim C1 words):
the rows of one subset are taken on their own and Δtime is the difference
between consecutive rows OF THAT SUBSET, the subset's first row's Δtime
treated as 0; the sum of abs(current)*Δtime times the capacity basis. -/
def capacityClaimSubset (base : ℚ) (sub : Table) : ℚ :=
  (((sub.zip (timeDiffs (sub.map Row.timeMin))).map
      (fun rc => |rc.1.crate| * rc.2)).sum) * base

/-! ## Cycle data container (data/container.py) -/

/-- CycleDataContainer._cycles: insertion-ordered mapping from cycle number to
its stored table (a Python dict; keys are unique by construction). -/
structure Container where
  cycles : List (ℕ × Table)
deriving Repr, DecidableEq

/-- Dict lookup self._cycles[n] (first matching key). -/
def lookupCycle (c : Container) (n : ℕ) : Option Table :=
  (c.cycles.find? (fun p => p.1 == n)).map Prod.snd

/-- CycleDataContainer.get_cycle (container.py lines 72-87): returns a copy of
the stored table, or raises KeyError naming the cycle number (the error
payload here is that number). -/
def get_cycle (c : Container) (cycle_no : ℕ) : Except ℕ Table :=
  match lookupCycle c cycle_no with
  | none => .error cycle_no
  | some t => .ok t

/-- One iteration of the CycleDataContainer.get_cycles loop (container.py
lines 145-149): accumulate the found (number, table copy) pairs and the
missing numbers. -/
def getCyclesStep (c : Container) (acc : List (ℕ × Table) × List ℕ) (n : ℕ) :
    List (ℕ × Table) × List ℕ :=
  match lookupCycle c n with
  | some t => (acc.1 ++ [(n, t)], acc.2)
  | none => (acc.1, acc.2 ++ [n])

/-- CycleDataContainer.get_cycles (container.py lines 130-154): one pass over
the requested list accumulating found tables and missing numbers, then raises
KeyError naming every missing number (error payload: that list) if any. -/
def get_cycles (c : Container) (cycle_list : List ℕ) : Except (List ℕ) (List (ℕ × Table)) :=
  let r := cycle_list.foldl (getCyclesStep c) ([], [])
  if r.2 = [] then .ok r.1 else .error r.2

/-- Python max over a list of rationals with a default for the empty case
(the source only takes the max of a nonempty column). -/
def listMaxD (l : List ℚ) : ℚ :=
  match l with
  | [] => 0
  | x :: xs => xs.foldl max x

/-- Shift a table's TimeMin column forward by dt
(df["TimeMin"] = df["TimeMin"] + cumulative_time). -/
def shiftTable (dt : ℚ) (t : Table) : Table :=
  t.map (fun r => { r with timeMin := r.timeMin + dt })

/-- pandas df["TimeMin"].max(): none models the NaN returned for an empty
column. -/
def tableMaxTime (t : Table) : Option ℚ :=
  match t.map Row.timeMin with
  | [] => none
  | x :: xs => some (xs.foldl max x)

/-- One iteration of the get_cycle_range loop (container.py lines 106-120):
state is (tables appended so far, cumulative_time). cumulative_time starts as
the number 0 and becomes the last appended table's TimeMin max (none = NaN
for an empty table; a NaN cumulative_time compares false against 0, so the
next table is not shifted, exactly as in pandas). -/
def rangeStep (acc : List Table × Option ℚ) (t : Table) : List Table × Option ℚ :=
  let t2 := match acc.2 with
    | some cum => if 0 < cum then shiftTable cum t else t
    | none => t
  (acc.1 ++ [t2], tableMaxTime t2)

/-- The loaded tables with cycle number in [s, e], in cycle-number order
(the loop skips numbers not in self._cycles). -/
def foundTables (c : Container) (s e : ℕ) : List Table :=
  (List.range' s (e + 1 - s)).filterMap (lookupCycle c)

/-- CycleDataContainer.get_cycle_range (container.py lines 89-128): fold the
found tables through rangeStep, raise ValueError naming the range if none
were found (error payload: the (start, end) pair), else concatenate. -/
def get_cycle_range (c : Container) (s e : ℕ) : Except (ℕ × ℕ) Table :=
  let dfs := ((foundTables c s e).foldl rangeStep ([], some 0)).1
  if dfs = [] then .error (s, e) else .ok dfs.flatten

/-- Claim-side reading of the time-axis correction (claim C3 words): shift
each table by the running maximum elapsed time of all tables appended so far,
where the running maximum after appending a table is the max of the previous
running maximum and that shifted table's own maximum. -/
def runningMaxJoin : ℚ → List Table → List Table
  | _, [] => []
  | m, t :: ts =>
      let t2 := shiftTable m t
      t2 :: runningMaxJoin (max m (listMaxD (t2.map Row.timeMin))) ts

/-! ## Loaders (data/base_loader.py, pne_loader.py, toyo_loader.py) and
bulk load (container.py load_all_cycles) -/

/-- The two exception types a loader raise can produce that matter to bulk
load: FileNotFoundError (PNE, missing SaveData file) and ValueError (Toyo,
"No data found for Cycle n"). The payload is the cycle number the message
names. -/
inductive LoadError where
  | fileNotFound (cycle_no : ℕ)
  | valueError (cycle_no : ℕ)
deriving Repr, DecidableEq

/-- BaseDataLoader.preprocess_data (base_loader.py lines 84-104): stable sort
by TimeMin. (The dropna of null Vol/Crate has no content here: the embedded
rows are total.) -/
def preprocess_data (df : Table) : Table :=
  df.insertionSort (fun a b => a.timeMin ≤ b.timeMin)

/-- PNEDataLoader.load_cycle (pne_loader.py lines 33-65): look the numbered
SaveData file up in the primary directory, then in Restore/, raising
FileNotFoundError if absent from both; validate (a no-op here: embedded
tables have all required columns) and preprocess. The two directories are
modelled as mappings from cycle number to the parsed file contents. -/
def pne_load_cycle (primary restoreDir : List (ℕ × Table)) (cycle_no : ℕ) :
    Except LoadError Table :=
  match (primary.find? (fun p => p.1 == cycle_no)).map Prod.snd with
  | some t => .ok (preprocess_data t)
  | none =>
    match (restoreDir.find? (fun p => p.1 == cycle_no)).map Prod.snd with
    | some t => .ok (preprocess_data t)
    | none => .error (.fileNotFound cycle_no)

/-- One row of the consolidated Toyo raw export: a Condition label and the
Time (seconds) / Voltage / Current columns. -/
structure ToyoRawRow where
  condition : String
  time : ℚ
  voltage : ℚ
  current : ℚ
deriving Repr, DecidableEq

/-- ToyoDataLoader._map_columns (toyo_loader.py lines 106-139): rename to the
standard columns and convert seconds to minutes; raw current is kept as is. -/
def toyo_map_columns (rows : List ToyoRawRow) : Table :=
  rows.map (fun r => ⟨r.time / 60, r.voltage, r.current⟩)

/-- pandas df["TimeMin"].min() with a default for the empty case (the source
guards len(df) > 0 before using it). -/
def tableMinTimeD (t : Table) : ℚ :=
  match t.map Row.timeMin with
  | [] => 0
  | x :: xs => xs.foldl min x

/-- ToyoDataLoader.preprocess_data (toyo_loader.py lines 179-196): base
preprocessing, then re-zero TimeMin to start at 0. -/
def toyo_preprocess_data (df : Table) : Table :=
  let df2 := preprocess_data df
  if df2.isEmpty then df2
  else
    let m := tableMinTimeD df2
    df2.map (fun r => { r with timeMin := r.timeMin - m })

/-- ToyoDataLoader.load_cycle (toyo_loader.py lines 39-73): filter the cached
raw table to the rows whose Condition label matches the requested cycle
number; raise ValueError ("No data found for Cycle n") when no row matches,
else map columns, validate and preprocess. condMatches abstracts the regex
test Condition.str.contains("Cycle\s+n", case=False, na=False). -/
def toyo_load_cycle (condMatches : String → ℕ → Bool) (raw : List ToyoRawRow)
    (cycle_no : ℕ) : Except LoadError Table :=
  let rows := raw.filter (fun r => condMatches r.condition cycle_no)
  if rows.isEmpty then .error (.valueError cycle_no)
  else .ok (toyo_preprocess_data (toyo_map_columns rows))

/-- The loop body of CycleDataContainer.load_all_cycles (container.py lines
59-65) over an explicit list of cycle numbers: store each success, catch
exactly FileNotFoundError and continue, let any other exception propagate
(aborting the whole load). -/
def loadRange (load : ℕ → Except LoadError Table) :
    List ℕ → List (ℕ × Table) → Except LoadError (List (ℕ × Table))
  | [], acc => .ok acc
  | n :: ns, acc =>
    match load n with
    | .ok t => loadRange load ns (acc ++ [(n, t)])
    | .error (.fileNotFound _) => loadRange load ns acc
    | .error e => .error e

/-- CycleDataContainer.load_all_cycles (container.py lines 37-70) for an
explicit cycle range (start, end): iterate the inclusive range. On success
the returned list is the final self._cycles mapping (metadata's loaded_cycles
list is its keys); on an uncaught exception the call aborts. -/
def load_all_cycles (load : ℕ → Except LoadError Table) (s e : ℕ) :
    Except LoadError (List (ℕ × Table)) :=
  loadRange load (List.range' s (e + 1 - s)) []

/-! ## Linked (multi-path) cycle analyzer (analysis/cycle/linked.py) -/

/-- Python max over a list of naturals (the source guards the list nonempty;
foldl max 0 agrees with it there). -/
def listMaxNat (l : List ℕ) : ℕ := l.foldl max 0

/-- The global-cycle-number assignment of LinkedCycleAnalyzer.analyze
(linked.py lines 87-153), projected to the Global_Cycle column of the summary
rows in manifest file order. Each manifest entry is none when its cyclepath is
absent from the containers mapping (skipped with a warning) and some locals
when present, locals being that container's sorted loaded local cycle
numbers. Globals are offset + local; after a path with nonempty locals the
offset becomes max(offset, max(locals)). -/
def linkedGlobals : ℕ → List (Option (List ℕ)) → List ℕ
  | _, [] => []
  | off, none :: rest => linkedGlobals off rest
  | off, some locals :: rest =>
      locals.map (fun l => off + l) ++
        linkedGlobals (if locals.isEmpty then off else max off (listMaxNat locals)) rest

/-- The successive values of cumulative_cycle_offset across the manifest
(initial value first, final value last). -/
def linkedOffsets : ℕ → List (Option (List ℕ)) → List ℕ
  | off, [] => [off]
  | off, none :: rest => off :: linkedOffsets off rest
  | off, some locals :: rest =>
      off :: linkedOffsets (if locals.isEmpty then off else max off (listMaxNat locals)) rest

/-! ## DCIR (BaseAnalyzer.calculate_ir, base_analyzer.py lines 127-165) -/

/-- df["Crate"].diff().abs() without the leading NaN: the absolute
row-to-row change of the signed current, for rows 1..n-1. pandas quantile
ignores that NaN and a NaN never satisfies a > comparison, so dropping it is
exact. -/
def currentDiffs (df : Table) : List ℚ :=
  match df.map Row.crate with
  | [] => []
  | c :: cs => (diffAux c cs).map (fun x => |x|)

/-- pandas Series.quantile(q) with the default linear interpolation over the
sorted non-null values: position h = q*(m-1), linear between the floor and
ceiling order statistics. Result for an empty list is irrelevant to
calculate_ir (no candidate row exists then) and fixed at 0. -/
def quantileLinear (q : ℚ) (l : List ℚ) : ℚ :=
  let s := l.insertionSort (fun a b => a ≤ b)
  match s with
  | [] => 0
  | _ :: _ =>
    let m : ℚ := s.length
    let h := q * (m - 1)
    let i := (⌊h⌋).toNat
    let lo := s.getD i 0
    let hi := s.getD (min (i + 1) (s.length - 1)) 0
    lo + (h - ⌊h⌋) * (hi - lo)

/-- Row indices (labels of the default RangeIndex, hence ≥ 1) whose
CurrentDiff strictly exceeds the threshold: df[df["CurrentDiff"] > threshold]
keeps the original index. -/
def pulseIndices (df : Table) (threshold : ℚ) : List ℕ :=
  (((currentDiffs df).enumFrom 1).filter (fun p => decide (threshold < p.2))).map Prod.fst

/-- BaseAnalyzer.calculate_ir (base_analyzer.py lines 127-165): threshold =
95th percentile of the absolute current change; fewer than 2 rows above it
gives 0; else pulse_start = first such row, pulse_end = min(start+10, n-1);
0 when abs(current delta) < 0.01, else abs(ΔV / ΔI) * 1000. -/
def calculate_ir (df : Table) : ℚ :=
  let threshold := quantileLinear (95 / 100) (currentDiffs df)
  let pulse_points := pulseIndices df threshold
  if pulse_points.length < 2 then 0
  else
    match pulse_points with
    | [] => 0
    | pulse_start :: _ =>
      let pulse_end := min (pulse_start + 10) (df.length - 1)
      let v_diff := (df.getD pulse_end default).vol - (df.getD pulse_start default).vol
      let i_diff := (df.getD pulse_end default).crate - (df.getD pulse_start default).crate
      if |i_diff| < 1 / 100 then 0 else |v_diff / i_diff| * 1000

/-- The DCIR routine as claim C6 words it: absolute row-to-row change of the
signed current; 95th percentile of that change as the pulse-detection
threshold; first row strictly exceeding it as pulse start and the row 10 rows
later (or the last row) as pulse end; result abs(ΔVoltage)/abs(ΔCurrent)*1000,
with 0 when fewer than 2 rows exceed the threshold or the current delta
between the two rows is below 0.01. -/
def calculate_ir_claim (df : Table) : ℚ :=
  let changes := currentDiffs df
  let threshold := quantileLinear (95 / 100) changes
  let exceeding := pulseIndices df threshold
  if exceeding.length < 2 then 0
  else
    match exceeding.head? with
    | none => 0
    | some p =>
      let e := min (p + 10) (df.length - 1)
      let dI := (df.getD e default).crate - (df.getD p default).crate
      if |dI| < 1 / 100 then 0
      else |(df.getD e default).vol - (df.getD p default).vol| / |dI| * 1000

/-! ## Normalized capacity curve
(IndividualCycleAnalyzer._normalize_capacity, individual.py lines 153-178;
duplicated in linked.py) -/

/-- Running sums with a starting accumulator (pandas Series.cumsum). -/
def cumsumFrom (acc : ℚ) : List ℚ → List ℚ
  | [] => []
  | x :: xs => (acc + x) :: cumsumFrom (acc + x) xs

/-- pandas Series.cumsum(). -/
def cumsum (l : List ℚ) : List ℚ := cumsumFrom 0 l

/-- The cumulative abs(Crate)*TimeDiff column of _normalize_capacity, with
TimeDiff computed inside the given (already filtered) subset. -/
def cumulativeCapacity (df : Table) : List ℚ :=
  cumsum ((withTimeDiff df).map (fun rc => |rc.1.crate| * rc.2))

/-- The subset's cumulative current-time integral: the total of
abs(Crate)*TimeDiff over the subset's rows. -/
def totalCapacityIntegral (df : Table) : ℚ :=
  ((withTimeDiff df).map (fun rc => |rc.1.crate| * rc.2)).sum

/-- IndividualCycleAnalyzer._normalize_capacity (individual.py lines
153-178): empty subset gives an empty series; else the cumulative
abs(current)*Δtime column scaled to percent of its maximum, or all zeros when
that maximum is not positive. -/
def normalize_capacity (df : Table) : List ℚ :=
  if df.isEmpty then []
  else
    let cum := cumulativeCapacity df
    let max_capacity := listMaxD cum
    if 0 < max_capacity then cum.map (fun x => x / max_capacity * 100)
    else List.replicate df.length 0

/-! ## Reliability analyzer (analysis/cycle/reliability.py) -/

/-- Python int(): truncation toward zero. -/
def pyInt (q : ℚ) : ℤ := if 0 ≤ q then ⌊q⌋ else ⌈q⌉

/-- scipy.stats.linregress slope over (x, y) points:
(n*Σxy - Σx*Σy) / (n*Σx² - (Σx)²), the ordinary least-squares slope. (In ℚ a
zero denominator — all x equal — yields 0; scipy raises there, and the
theorems below assume a nonzero denominator where it matters.) -/
def linregressSlope (pts : List (ℚ × ℚ)) : ℚ :=
  let n : ℚ := pts.length
  let sx := (pts.map Prod.fst).sum
  let sy := (pts.map Prod.snd).sum
  let sxy := (pts.map (fun p => p.1 * p.2)).sum
  let sxx := (pts.map (fun p => p.1 * p.1)).sum
  (n * sxy - sx * sy) / (n * sxx - sx * sx)

/-- ReliabilityCycleAnalyzer._predict_lifecycle (reliability.py lines
234-280). capacityRows is capacity_df as (Cycle, Discharge_Capacity) pairs;
initial_capacity and linear_slope are the fade_analysis entries it reads. The
result models the returned Python dict as an insertion-ordered key/value
list. The degenerate branch returns the three-key all-zero dict; the other
branch computes eol = 0.8*initial, predicted EOL cycle =
int((eol - initial)/slope), current cycle = last row's Cycle (the source
indexes iloc[-1], only reached on nonempty data; 0 is a dummy default), and
remaining = max(0, predicted - current). -/
def predict_lifecycle (capacityRows : List (ℚ × ℚ))
    (initial_capacity linear_slope : ℚ) : List (String × ℚ) :=
  if initial_capacity ≤ 0 ∨ 0 ≤ linear_slope then
    [("eol_capacity", 0), ("predicted_eol_cycle", 0), ("remaining_cycles", 0)]
  else
    let eol_capacity := initial_capacity * (8 / 10)
    let predicted_eol_cycle : ℤ := pyInt ((eol_capacity - initial_capacity) / linear_slope)
    let current_cycle := ((capacityRows.getLast?).map Prod.fst).getD 0
    let remaining_cycles := max 0 ((predicted_eol_cycle : ℚ) - current_cycle)
    [("eol_capacity", eol_capacity), ("predicted_eol_cycle", (predicted_eol_cycle : ℚ)),
     ("current_cycle", current_cycle), ("remaining_cycles", remaining_cycles)]

/-- Python dict subscript d[k]: the value, or a KeyError naming the key. -/
def dictGetQ (d : List (String × ℚ)) (k : String) : Except String ℚ :=
  match d.lookup k with
  | some v => .ok v
  | none => .error k

/-- The four reads ReliabilityCycleAnalyzer.get_summary_report (reliability.py
lines 326-360) performs on results["lifecycle_prediction"], in f-string
evaluation order: eol_capacity, predicted_eol_cycle, current_cycle,
remaining_cycles — each an unconditional dict subscript. -/
def summary_report_lifecycle_fields (lifecycle : List (String × ℚ)) :
    Except String (ℚ × ℚ × ℚ × ℚ) := do
  let a ← dictGetQ lifecycle "eol_capacity"
  let b ← dictGetQ lifecycle "predicted_eol_cycle"
  let c ← dictGetQ lifecycle "current_cycle"
  let d ← dictGetQ lifecycle "remaining_cycles"
  return (a, b, c, d)

/-! ## Heap model of the container reads (claim C9)

Python objects live on a heap and variables hold references; df.copy()
allocates a fresh deep copy of the numeric data, while dict.copy() copies
only the top level and shares every nested object. To settle the aliasing
claim, the container is re-embedded with explicit reference cells: a heap of
table objects and a heap of Python list objects, references being indices. -/

namespace Alias

/-- The object heap: table objects and list objects (only the loaded_cycles
metadata value is a shared mutable list here). -/
structure Heap where
  tables : List Table
  lists : List (List ℕ)
deriving Repr, DecidableEq

/-- CycleDataContainer._metadata after load_all_cycles: data_path and
cycle_range are immutable Python values held directly; loaded_cycles is a
reference to a list object on the heap. -/
structure MetaD where
  dataPath : String
  cycleRange : ℕ × ℕ
  loadedCycles : ℕ
deriving Repr, DecidableEq

/-- The container with its stored tables held by reference. -/
structure ContainerH where
  cycles : List (ℕ × ℕ)
  meta : MetaD
deriving Repr, DecidableEq

/-- Dereference a table object. -/
def readTable (h : Heap) (r : ℕ) : Table := h.tables.getD r []

/-- Dereference a list object. -/
def readList (h : Heap) (r : ℕ) : List ℕ := h.lists.getD r []

/-- In-place mutation of a table object (what a caller does to a returned
DataFrame). -/
def writeTable (h : Heap) (r : ℕ) (t : Table) : Heap :=
  { h with tables := h.tables.set r t }

/-- In-place mutation of a list object (e.g. appending to a returned
metadata's loaded_cycles list). -/
def writeList (h : Heap) (r : ℕ) (v : List ℕ) : Heap :=
  { h with lists := h.lists.set r v }

/-- df.copy(): allocate a fresh table object with the same contents and
return its reference. -/
def allocTable (h : Heap) (t : Table) : Heap × ℕ :=
  ({ h with tables := h.tables ++ [t] }, h.tables.length)

/-- Reference-level lookup in _cycles. -/
def lookupRef (c : ContainerH) (n : ℕ) : Option ℕ :=
  (c.cycles.find? (fun p => p.1 == n)).map Prod.snd

/-- get_cycle in the heap model: returns a reference to a fresh copy of the
stored table, or KeyError naming the number. -/
def get_cycle_h (h : Heap) (c : ContainerH) (cycle_no : ℕ) : Heap × Except ℕ ℕ :=
  match lookupRef c cycle_no with
  | none => (h, .error cycle_no)
  | some r =>
    let a := allocTable h (readTable h r)
    (a.1, .ok a.2)

/-- One iteration of the get_cycles loop in the heap model: copy the found
table onto the heap, or record the missing number. -/
def getCyclesStepH (c : ContainerH) (acc : Heap × List (ℕ × ℕ) × List ℕ) (n : ℕ) :
    Heap × List (ℕ × ℕ) × List ℕ :=
  match lookupRef c n with
  | some tr =>
    let a := allocTable acc.1 (readTable acc.1 tr)
    (a.1, acc.2.1 ++ [(n, a.2)], acc.2.2)
  | none => (acc.1, acc.2.1, acc.2.2 ++ [n])

/-- get_cycles in the heap model: copies each found table; KeyError naming
every missing number if any. -/
def get_cycles_h (h : Heap) (c : ContainerH) (cycle_list : List ℕ) :
    Heap × Except (List ℕ) (List (ℕ × ℕ)) :=
  let r := cycle_list.foldl (getCyclesStepH c) (h, [], [])
  if r.2.2 = [] then (r.1, .ok r.2.1) else (r.1, .error r.2.2)

/-- get_cycle_range in the heap model: per-cycle copies feed the merge and a
fresh object holds the concatenation, so only a fresh reference escapes. -/
def get_cycle_range_h (h : Heap) (c : ContainerH) (s e : ℕ) :
    Heap × Except (ℕ × ℕ) ℕ :=
  let found := (List.range' s (e + 1 - s)).filterMap (lookupRef c)
  let dfs := ((found.map (readTable h)).foldl rangeStep ([], some 0)).1
  if dfs = [] then (h, .error (s, e))
  else
    let a := allocTable h dfs.flatten
    (a.1, .ok a.2)

/-- get_metadata (container.py lines 167-173): self._metadata.copy() — a
shallow dict copy. The MetaD value is copied, but loadedCycles is the same
reference as the stored one: the nested list object is shared. -/
def get_metadata_h (h : Heap) (c : ContainerH) : Heap × MetaD :=
  (h, c.meta)

/-- Well-formed container state: every stored table reference and the
loaded_cycles reference point into the heap. -/
def WF (h : Heap) (c : ContainerH) : Prop :=
  (∀ p ∈ c.cycles, p.2 < h.tables.length) ∧ c.meta.loadedCycles < h.lists.length

end Alias

/-! ## Concrete fixtures used by counterexamples and witnesses -/

/-- A three-row table: one charge row then two discharge rows, with the
discharge subset starting away from the table's first row. -/
def dfC1 : Table := [⟨0, 4, 1⟩, ⟨1, 4, -1⟩, ⟨2, 3, -1⟩]

/-- A Toyo raw export holding rows for cycles 1 and 3 only (cycle 2 absent
from the Condition labels). -/
def toyoRaw13 : List ToyoRawRow :=
  [⟨"Cycle 1", 0, 4, 1⟩, ⟨"Cycle 1", 60, 4, -1⟩,
   ⟨"Cycle 3", 120, 4, 1⟩, ⟨"Cycle 3", 180, 4, -1⟩]

/-- Condition matching for the fixture: exact label equality (an instance of
the regex containment the loader performs). -/
def toyoMatchEq (cond : String) (n : ℕ) : Bool :=
  cond == "Cycle " ++ toString n

/-- A two-row discharge subset (the Crate < 0 rows of dfC1, keeping their
original times), used to evaluate the normalized capacity curve. -/
def dfW : Table := [⟨1, 4, -1⟩, ⟨2, 3, -1⟩]

/-- A two-cycle container: cycles 1 and 2 loaded, each sorted with
non-negative times. -/
def containerC3 : Container :=
  ⟨[(1, [⟨0, 4, 1⟩, ⟨5, 3, -1⟩]), (2, [⟨0, 4, 1⟩, ⟨3, 3, -1⟩])]⟩

/-- A container holding an empty table between two nonempty ones (all
sorted with non-negative times): cycle 2's stored DataFrame has no rows, so
its pandas TimeMin max is NaN during a ranged read. -/
def containerC3gap : Container :=
  ⟨[(1, [⟨0, 4, 1⟩, ⟨5, 3, -1⟩]), (2, []), (3, [⟨0, 4, 1⟩, ⟨3, 3, -1⟩])]⟩

/-- Heap fixture for the aliasing claim: one stored table and the metadata's
loaded_cycles list object. -/
def heapC9 : Alias.Heap := ⟨[[⟨0, 4, 1⟩]], [[1]]⟩

/-- Container fixture for the aliasing claim: cycle 1 stored at table
reference 0, metadata loaded_cycles at list reference 0. -/
def containerC9 : Alias.ContainerH := ⟨[(1, 0)], ⟨"data", (1, 1), 0⟩⟩

/-- The amended claim C1 statement: per-cycle capacity derivation with Δtime
taken over consecutive rows of the WHOLE table (the table's first row's Δtime
treated as 0), each subset summing abs(current)*Δtime over its rows times the
capacity basis; both capacities non-negative; efficiency =
discharge/charge*100 with 0 when charge capacity is 0; and
BaseAnalyzer.get_capacity agreeing with the discharge capacity. -/
def capacityAmendedStatement (mode : CapacityMode) (df : Table) : Prop :=
  (calculate_cycle_capacity mode df).discharge_capacity =
      (((withTimeDiff df).filter (fun rc => decide (rc.1.crate < 0))).map
        (fun rc => |rc.1.crate| * rc.2)).sum * capacityBase mode ∧
  (calculate_cycle_capacity mode df).charge_capacity =
      (((withTimeDiff df).filter (fun rc => decide (0 < rc.1.crate))).map
        (fun rc => |rc.1.crate| * rc.2)).sum * capacityBase mode ∧
  0 ≤ (calculate_cycle_capacity mode df).discharge_capacity ∧
  0 ≤ (calculate_cycle_capacity mode df).charge_capacity ∧
  (calculate_cycle_capacity mode df).efficiency =
      (if (calculate_cycle_capacity mode df).charge_capacity = 0 then 0
       else (calculate_cycle_capacity mode df).discharge_capacity /
         (calculate_cycle_capacity mode df).charge_capacity * 100) ∧
  get_capacity mode df = (calculate_cycle_capacity mode df).discharge_capacity

/-- The well-formedness the loaders guarantee for every stored table and
that claim C3's continuity statement assumes: rows sorted by elapsed time,
non-negative elapsed times, and at least one row. -/
def GoodTable (t : Table) : Prop :=
  List.Chain' (· ≤ ·) (t.map Row.timeMin) ∧ (∀ r ∈ t, 0 ≤ r.timeMin) ∧ t ≠ []

/-! # Theorems -/

/-- Elements of diffAux are differences of consecutive elements of a
non-decreasing list, hence non-negative. -/
theorem diffAux_nonneg {prev : ℚ} {l : List ℚ}
    (h : List.Chain' (· ≤ ·) (prev :: l)) : ∀ x ∈ diffAux prev l, 0 ≤ x := by
  induction l generalizing prev with
  | nil => intro x hx; simp [diffAux] at hx
  | cons y ys ih =>
    intro x hx
    rw [List.chain'_cons] at h
    simp only [diffAux, List.mem_cons] at hx
    rcases hx with rfl | hx
    · linarith [h.1]
    · exact ih h.2 x hx

/-- All TimeDiff values of a time-sorted column are non-negative. -/
theorem timeDiffs_nonneg {l : List ℚ} (h : List.Chain' (· ≤ ·) l) :
    ∀ x ∈ timeDiffs l, 0 ≤ x := by
  cases l with
  | nil => intro x hx; simp [timeDiffs] at hx
  | cons t ts =>
    intro x hx
    simp only [timeDiffs, List.mem_cons] at hx
    rcases hx with rfl | hx
    · exact le_refl 0
    · exact diffAux_nonneg h x hx

/-- Every (row, TimeDiff) pair of a time-sorted table has a non-negative
TimeDiff. -/
theorem withTimeDiff_snd_nonneg {df : Table}
    (h : List.Chain' (· ≤ ·) (df.map Row.timeMin)) :
    ∀ rc ∈ withTimeDiff df, 0 ≤ rc.2 := by
  intro rc hrc
  obtain ⟨r, dt⟩ := rc
  have hz : r ∈ df ∧ dt ∈ timeDiffs (df.map Row.timeMin) := List.of_mem_zip hrc
  exact timeDiffs_nonneg h dt hz.2

/-- C1 counterexample: on a table whose discharge subset does not start at
the table's first row, the code's discharge capacity (Δtime over consecutive
rows of the whole table) differs from the claimed subset-wise integral (the
subset's own consecutive rows, first Δtime 0). -/
theorem calculate_cycle_capacity_subsetwise_refuted :
    (calculate_cycle_capacity (.manual 1) dfC1).discharge_capacity ≠
      capacityClaimSubset (capacityBase (.manual 1))
        (dfC1.filter (fun r => decide (r.crate < 0))) := by
  norm_num [calculate_cycle_capacity, capacityClaimSubset, capacityBase, dfC1,
    withTimeDiff, timeDiffs, diffAux, List.filter]

/-- C1 (amended): for a table sorted by TimeMin and a non-negative capacity
basis (configuration validation requires a positive manual capacity), the
per-cycle derivation splits rows by sign of Crate and sums
abs(current)*Δtime with Δtime taken over consecutive rows of the whole table
(first row 0), times the capacity basis (manual value or default 58.0); both
capacities are non-negative; efficiency is discharge/charge*100, 0 when
charge capacity is 0; BaseAnalyzer.get_capacity equals the discharge
capacity. -/
theorem calculate_cycle_capacity_whole_table (mode : CapacityMode) (df : Table)
    (hsort : List.Chain' (· ≤ ·) (df.map Row.timeMin))
    (hbase : 0 ≤ capacityBase mode) :
    capacityAmendedStatement mode df := by
  have hdt : ∀ rc ∈ withTimeDiff df, 0 ≤ rc.2 := withTimeDiff_snd_nonneg hsort
  have hdis : (((withTimeDiff df).filter (fun rc => decide (rc.1.crate < 0))).map
      (fun rc => |rc.1.crate * rc.2|)) =
      (((withTimeDiff df).filter (fun rc => decide (rc.1.crate < 0))).map
      (fun rc => |rc.1.crate| * rc.2)) := by
    refine List.map_congr_left ?_
    intro a ha
    have h2 : 0 ≤ a.2 := hdt a (List.mem_filter.mp ha).1
    rw [abs_mul, abs_of_nonneg h2]
  have hch : (((withTimeDiff df).filter (fun rc => decide (0 < rc.1.crate))).map
      (fun rc => rc.1.crate * rc.2)) =
      (((withTimeDiff df).filter (fun rc => decide (0 < rc.1.crate))).map
      (fun rc => |rc.1.crate| * rc.2)) := by
    refine List.map_congr_left ?_
    intro a ha
    have hc : 0 < a.1.crate := by
      have := (List.mem_filter.mp ha).2
      simpa using this
    rw [abs_of_pos hc]
  have hd_eq : (calculate_cycle_capacity mode df).discharge_capacity =
      (((withTimeDiff df).filter (fun rc => decide (rc.1.crate < 0))).map
        (fun rc => |rc.1.crate| * rc.2)).sum * capacityBase mode := by
    simp only [calculate_cycle_capacity]
    rw [hdis]
  have hc_eq : (calculate_cycle_capacity mode df).charge_capacity =
      (((withTimeDiff df).filter (fun rc => decide (0 < rc.1.crate))).map
        (fun rc => |rc.1.crate| * rc.2)).sum * capacityBase mode := by
    simp only [calculate_cycle_capacity]
    rw [hch]
  have hterm : ∀ (p : Row × ℚ → Bool),
      0 ≤ (((withTimeDiff df).filter p).map (fun rc => |rc.1.crate| * rc.2)).sum := by
    intro p
    refine List.sum_nonneg ?_
    intro x hx
    obtain ⟨a, ha, rfl⟩ := List.mem_map.mp hx
    exact mul_nonneg (abs_nonneg _) (hdt a (List.mem_filter.mp ha).1)
  have hd_nonneg : 0 ≤ (calculate_cycle_capacity mode df).discharge_capacity := by
    rw [hd_eq]; exact mul_nonneg (hterm _) hbase
  have hc_nonneg : 0 ≤ (calculate_cycle_capacity mode df).charge_capacity := by
    rw [hc_eq]; exact mul_nonneg (hterm _) hbase
  refine ⟨hd_eq, hc_eq, hd_nonneg, hc_nonneg, ?_, ?_⟩
  · have heff : (calculate_cycle_capacity mode df).efficiency =
        (if 0 < (calculate_cycle_capacity mode df).charge_capacity
         then (calculate_cycle_capacity mode df).discharge_capacity /
           (calculate_cycle_capacity mode df).charge_capacity * 100 else 0) := rfl
    rw [heff]
    rcases eq_or_lt_of_le hc_nonneg with hzero | hpos
    · rw [if_neg (by rw [← hzero]; exact lt_irrefl 0), if_pos hzero.symm]
    · rw [if_pos hpos, if_neg (ne_of_gt hpos)]
  · simp only [get_capacity, calculate_cycle_capacity]
    split
    · next hemp =>
        rw [List.isEmpty_iff] at hemp
        rw [hemp]
        simp
    · rfl

/-- C1 amended witness: the amended statement holds at the concrete fixture
table in manual capacity mode. -/
theorem calculate_cycle_capacity_whole_table_witness :
    (List.Chain' (· ≤ ·) (dfC1.map Row.timeMin) ∧
      0 ≤ capacityBase (.manual 1)) ∧
      capacityAmendedStatement (.manual 1) dfC1 := by
  have h1 : List.Chain' (· ≤ ·) (dfC1.map Row.timeMin) := by
    norm_num [dfC1, List.chain'_cons, List.chain'_singleton]
  have h2 : (0 : ℚ) ≤ capacityBase (.manual 1) := by norm_num [capacityBase]
  exact ⟨⟨h1, h2⟩, calculate_cycle_capacity_whole_table _ _ h1 h2⟩

/-- Characterization of the get_cycles loop: from any accumulator state it
appends the found pairs and the missing numbers, each in request order. -/
theorem getCycles_foldl (c : Container) (l : List ℕ)
    (acc : List (ℕ × Table) × List ℕ) :
    l.foldl (getCyclesStep c) acc =
      (acc.1 ++ l.filterMap (fun n => (lookupCycle c n).map (fun t => (n, t))),
       acc.2 ++ l.filter (fun n => (lookupCycle c n).isNone)) := by
  induction l generalizing acc with
  | nil => simp
  | cons n ns ih =>
    simp only [List.foldl_cons]
    cases hn : lookupCycle c n with
    | some t =>
      rw [ih]
      simp [getCyclesStep, List.filterMap_cons, List.filter_cons, hn]
    | none =>
      rw [ih]
      simp [getCyclesStep, List.filterMap_cons, List.filter_cons, hn]

/-- C8: a never-loaded cycle number makes get_cycle fail naming exactly that
number; get_cycles with at least one missing number fails naming all missing
numbers in request order, and with none missing returns one table per
requested number. -/
theorem get_cycle_and_get_cycles_not_found (c : Container) :
    (∀ n, lookupCycle c n = none → get_cycle c n = .error n) ∧
    (∀ l, (∃ n ∈ l, lookupCycle c n = none) →
      get_cycles c l = .error (l.filter (fun n => (lookupCycle c n).isNone))) ∧
    (∀ l, (∀ n ∈ l, (lookupCycle c n).isSome) →
      get_cycles c l =
        .ok (l.filterMap (fun n => (lookupCycle c n).map (fun t => (n, t))))) := by
  refine ⟨?_, ?_, ?_⟩
  · intro n hn
    simp [get_cycle, hn]
  · intro l hl
    obtain ⟨n, hnl, hn⟩ := hl
    have hmem : n ∈ l.filter (fun n => (lookupCycle c n).isNone) := by
      rw [List.mem_filter]
      exact ⟨hnl, by simp [hn]⟩
    have hne : l.filter (fun n => (lookupCycle c n).isNone) ≠ [] :=
      List.ne_nil_of_mem hmem
    simp only [get_cycles, getCycles_foldl, List.nil_append]
    rw [if_neg hne]
  · intro l hl
    have hnil : l.filter (fun n => (lookupCycle c n).isNone) = [] := by
      rw [List.filter_eq_nil_iff]
      intro n hn
      simp [Option.isNone_iff_eq_none, ← Option.not_isSome_iff_eq_none, hl n hn]
    simp [get_cycles, getCycles_foldl, List.nil_append, hnil]

/-- C8 witness: at the two-cycle fixture container, get_cycle 5 fails naming
5; get_cycles [1, 5, 7] fails naming [5, 7]; get_cycles [1, 2] returns a
table per requested number. -/
theorem get_cycle_and_get_cycles_not_found_witness :
    get_cycle containerC3 5 = .error 5 ∧
    get_cycles containerC3 [1, 5, 7] = .error [5, 7] ∧
    get_cycles containerC3 [1, 2] =
      .ok [(1, [⟨0, 4, 1⟩, ⟨5, 3, -1⟩]), (2, [⟨0, 4, 1⟩, ⟨3, 3, -1⟩])] := by
  refine ⟨(get_cycle_and_get_cycles_not_found containerC3).1 5 rfl, ?_, ?_⟩
  · have h := (get_cycle_and_get_cycles_not_found containerC3).2.1 [1, 5, 7]
      ⟨5, by norm_num, rfl⟩
    rw [h]
    rfl
  · have h := (get_cycle_and_get_cycles_not_found containerC3).2.2 [1, 2]
      (by intro n hn; fin_cases hn <;> rfl)
    rw [h]
    rfl

/-- When every failure of the loader is a FileNotFoundError, the bulk-load
loop completes and stores exactly the successfully loading cycles in order. -/
theorem loadRange_ok_of_fnf (load : ℕ → Except LoadError Table)
    (h : ∀ n err, load n = .error err → ∃ m, err = .fileNotFound m) :
    ∀ (ns : List ℕ) (acc : List (ℕ × Table)),
      loadRange load ns acc =
        .ok (acc ++ ns.filterMap (fun n => (load n).toOption.map (fun t => (n, t)))) := by
  intro ns
  induction ns with
  | nil => intro acc; simp [loadRange]
  | cons n ns ih =>
    intro acc
    cases hn : load n with
    | ok t => simp [loadRange, hn, ih, Except.toOption, List.filterMap_cons]
    | error err =>
      obtain ⟨m, rfl⟩ := h n err hn
      simp [loadRange, hn, ih, Except.toOption, List.filterMap_cons]

/-- C2 counterexample: a Toyo raw export holding cycles 1 and 3 but not 2.
Cycles 1 and 3 load successfully and cycle 2 fails because it is absent, yet
load_all_cycles over the inclusive range [1, 3] aborts with the uncaught
ValueError instead of storing 1 and 3 and skipping 2. -/
theorem load_all_cycles_toyo_gap_aborts :
    (toyo_load_cycle toyoMatchEq toyoRaw13 1).isOk = true ∧
    (toyo_load_cycle toyoMatchEq toyoRaw13 3).isOk = true ∧
    toyo_load_cycle toyoMatchEq toyoRaw13 2 = .error (.valueError 2) ∧
    load_all_cycles (toyo_load_cycle toyoMatchEq toyoRaw13) 1 3 =
      .error (.valueError 2) :=
  ⟨rfl, rfl, rfl, rfl⟩

/-- C2 (amended): bulk load is gap-tolerant exactly for FileNotFoundError —
it stores every success and skips each FileNotFoundError, so it completes
whenever all loader failures are FileNotFoundError; every PNE load_cycle
failure is the FileNotFoundError naming the request, so PNE bulk load never
aborts on a missing SaveData file; a Toyo cycle with no matching Condition
rows raises ValueError, which the bulk loop does not catch, so the loop
aborts there (after any earlier successes or skips). -/
theorem load_all_cycles_gap_tolerance :
    (∀ (load : ℕ → Except LoadError Table) (s e : ℕ),
      (∀ n err, load n = .error err → ∃ m, err = .fileNotFound m) →
      load_all_cycles load s e =
        .ok ((List.range' s (e + 1 - s)).filterMap
          (fun n => (load n).toOption.map (fun t => (n, t))))) ∧
    (∀ primary restoreDir n err,
      pne_load_cycle primary restoreDir n = .error err → err = .fileNotFound n) ∧
    (∀ (condMatches : String → ℕ → Bool) (raw : List ToyoRawRow) (n : ℕ),
      raw.filter (fun r => condMatches r.condition n) = [] →
      toyo_load_cycle condMatches raw n = .error (.valueError n)) ∧
    (∀ (load : ℕ → Except LoadError Table) (ns₁ ns₂ : List ℕ) (n k : ℕ)
      (acc : List (ℕ × Table)),
      (∀ m ∈ ns₁, (load m).isOk = true ∨ ∃ j, load m = .error (.fileNotFound j)) →
      load n = .error (.valueError k) →
      loadRange load (ns₁ ++ n :: ns₂) acc = .error (.valueError k)) := by
  refine ⟨?_, ?_, ?_, ?_⟩
  · intro load s e h
    simpa [load_all_cycles] using loadRange_ok_of_fnf load h (List.range' s (e + 1 - s)) []
  · intro primary restoreDir n err h
    simp only [pne_load_cycle] at h
    cases h1 : (primary.find? (fun p => p.1 == n)).map Prod.snd with
    | some t => rw [h1] at h; simp at h
    | none =>
      rw [h1] at h
      cases h2 : (restoreDir.find? (fun p => p.1 == n)).map Prod.snd with
      | some t => rw [h2] at h; simp at h
      | none =>
        rw [h2] at h
        simp only [Except.error.injEq] at h
        exact h.symm
  · intro condMatches raw n h
    simp [toyo_load_cycle, h]
  · intro load ns₁ ns₂ n k acc h1 h2
    induction ns₁ generalizing acc with
    | nil => simp [loadRange, h2]
    | cons m ms ih =>
      cases hload : load m with
      | ok t =>
        simp only [List.cons_append, loadRange, hload]
        exact ih (acc ++ [(m, t)]) (fun x hx => h1 x (List.mem_cons_of_mem m hx))
      | error err =>
        rcases h1 m (List.mem_cons_self m ms) with hok | ⟨j, hfnf⟩
        · rw [hload] at hok
          simp [Except.isOk, Except.toBool] at hok
        · rw [hload] at hfnf
          obtain rfl : err = .fileNotFound j := by
            simpa using hfnf
          simp only [List.cons_append, loadRange, hload]
          exact ih acc (fun x hx => h1 x (List.mem_cons_of_mem m hx))

/-- C2 amended witness: a PNE directory holding only SaveData1 bulk-loads the
range [1, 2] to completion, storing cycle 1 and skipping the missing cycle
2. -/
theorem load_all_cycles_gap_tolerance_witness :
    load_all_cycles (pne_load_cycle [(1, dfC1)] []) 1 2 =
      .ok [(1, preprocess_data dfC1)] := by
  have h := load_all_cycles_gap_tolerance.1 (pne_load_cycle [(1, dfC1)] []) 1 2
    (fun n err he => ⟨n, load_all_cycles_gap_tolerance.2.1 [(1, dfC1)] [] n err he⟩)
  rw [h]
  rfl

/-- The head of the offsets trace is the initial offset. -/
theorem linkedOffsets_head (off : ℕ) (paths : List (Option (List ℕ))) :
    (linkedOffsets off paths).head? = some off := by
  cases paths with
  | nil => rfl
  | cons p rest => cases p <;> rfl

/-- The running maximum of the local cycle numbers 1..m is m. -/
theorem listMaxNat_range' (m : ℕ) : listMaxNat (List.range' 1 m) = m := by
  induction m with
  | zero => rfl
  | succ k ih =>
    rw [List.range'_concat]
    simp only [listMaxNat, List.foldl_append, List.foldl_cons, List.foldl_nil]
    simp only [listMaxNat] at ih
    rw [ih]
    omega

/-- C4 counterexample: three paths whose local cycle numbers each restart at
1 (locals [1,2], [1,2], [1]). The produced global sequence is [1,2,3,4,3],
which decreases at the last path boundary: after the second path the offset
is max(2,2)=2, so the third path's cycle 1 gets global number 3 again. -/
theorem linked_globals_not_monotone :
    [some [1, 2], some [1, 2], some [1]] =
      [some (List.range' 1 2), some (List.range' 1 2), some (List.range' 1 1)] ∧
    linkedGlobals 0 [some [1, 2], some [1, 2], some [1]] = [1, 2, 3, 4, 3] ∧
    ¬ List.Chain' (· ≤ ·) (linkedGlobals 0 [some [1, 2], some [1, 2], some [1]]) := by
  refine ⟨rfl, rfl, fun h => ?_⟩
  have h' : List.Chain' (· ≤ ·) ([1, 2, 3, 4, 3] : List ℕ) := h
  simp only [List.chain'_cons, List.chain'_singleton, and_true] at h'
  omega

/-- C4 (amended): the running offset trace is non-decreasing across the
manifest for every manifest and container mapping (offset after a path is
max(previous offset, the path's maximum local number)); and the global cycle
number sequence is strictly increasing whenever the manifest lists at most
two paths with locals restarting at 1 — with three or more paths it can
decrease at a boundary, as the counterexample shows. -/
theorem linked_offsets_monotone_two_path_globals :
    (∀ (off : ℕ) (paths : List (Option (List ℕ))),
      List.Chain' (· ≤ ·) (linkedOffsets off paths)) ∧
    (∀ m1 m2 : ℕ, 1 ≤ m1 → 1 ≤ m2 →
      List.Chain' (· < ·)
        (linkedGlobals 0 [some (List.range' 1 m1), some (List.range' 1 m2)])) := by
  constructor
  · intro off paths
    induction paths generalizing off with
    | nil => simp [linkedOffsets]
    | cons p rest ih =>
      cases p with
      | none =>
        rw [linkedOffsets, List.chain'_cons']
        refine ⟨fun y hy => ?_, ih off⟩
        rw [linkedOffsets_head, Option.mem_some_iff] at hy
        omega
      | some locals =>
        rw [linkedOffsets, List.chain'_cons']
        refine ⟨fun y hy => ?_, ih _⟩
        rw [linkedOffsets_head, Option.mem_some_iff] at hy
        subst hy
        split
        · exact le_refl off
        · exact le_max_left _ _
  · intro m1 m2 h1 h2
    have hne : ¬ (List.range' 1 m1).isEmpty := by
      cases m1 with
      | zero => omega
      | succ k => simp [List.range']
    have hoff : (if (List.range' 1 m1).isEmpty then (0 : ℕ)
        else max 0 (listMaxNat (List.range' 1 m1))) = m1 := by
      rw [if_neg hne, listMaxNat_range']
      omega
    have hglob : linkedGlobals 0 [some (List.range' 1 m1), some (List.range' 1 m2)] =
        List.range' 1 (m2 + m1) := by
      simp only [linkedGlobals, List.append_nil]
      rw [hoff]
      have hA : (List.range' 1 m1).map (fun l => 0 + l) = List.range' 1 m1 := by
        simp
      have hB : (List.range' 1 m2).map (fun l => m1 + l) = List.range' (1 + 1 * m1) m2 := by
        rw [List.map_add_range']
        congr 1
        omega
      rw [hA, hB, List.range'_append]
    rw [hglob]
    exact (List.pairwise_lt_range' 1 (m2 + m1)).chain'

/-- C4 amended witness: the offsets trace of the counterexample manifest is
non-decreasing, and a two-path manifest with locals 1..2 and 1..3 yields
strictly increasing global numbers. -/
theorem linked_offsets_monotone_two_path_globals_witness :
    List.Chain' (· ≤ ·) (linkedOffsets 0 [some [1, 2], some [1, 2], some [1]]) ∧
    (1 ≤ 2 ∧ 1 ≤ 3) ∧
    List.Chain' (· < ·)
      (linkedGlobals 0 [some (List.range' 1 2), some (List.range' 1 3)]) :=
  ⟨linked_offsets_monotone_two_path_globals.1 0 _,
   ⟨by omega, by omega⟩,
   linked_offsets_monotone_two_path_globals.2 2 3 (by omega) (by omega)⟩

/-- C6: the DCIR routine agrees pointwise with the claim's description —
95th-percentile threshold on the absolute current change, first strictly
exceeding row as pulse start, 10 rows later (clipped to the last row) as
pulse end, 0 for fewer than 2 candidates or a current delta below 0.01, else
abs(ΔVoltage)/abs(ΔCurrent)*1000. -/
theorem calculate_ir_eq_claim (df : Table) : calculate_ir df = calculate_ir_claim df := by
  simp only [calculate_ir, calculate_ir_claim]
  cases hps : pulseIndices df (quantileLinear (95 / 100) (currentDiffs df)) with
  | nil => rfl
  | cons p rest =>
    by_cases hlen : (p :: rest).length < 2
    · rw [if_pos hlen, if_pos hlen]
    · rw [if_neg hlen, if_neg hlen]
      simp only [List.head?]
      by_cases hdiff :
        |(df.getD (min (p + 10) (df.length - 1)) default).crate -
          (df.getD p default).crate| < 1 / 100
      · rw [if_pos hdiff, if_pos hdiff]
      · rw [if_neg hdiff, if_neg hdiff, abs_div]

/-- diffAux preserves length. -/
theorem diffAux_length (prev : ℚ) (l : List ℚ) : (diffAux prev l).length = l.length := by
  induction l generalizing prev with
  | nil => rfl
  | cons x xs ih => simp [diffAux, ih]

/-- timeDiffs preserves length. -/
theorem timeDiffs_length (l : List ℚ) : (timeDiffs l).length = l.length := by
  cases l with
  | nil => rfl
  | cons t ts => simp [timeDiffs, diffAux_length]

/-- The zipped (row, TimeDiff) table has the table's length. -/
theorem withTimeDiff_length (df : Table) : (withTimeDiff df).length = df.length := by
  simp [withTimeDiff, List.length_zip, timeDiffs_length]

/-- cumsumFrom preserves length. -/
theorem cumsumFrom_length (a : ℚ) (l : List ℚ) : (cumsumFrom a l).length = l.length := by
  induction l generalizing a with
  | nil => rfl
  | cons x xs ih => simp [cumsumFrom, ih]

/-- Every running sum of non-negative terms is at least the start value. -/
theorem cumsumFrom_le_mem {l : List ℚ} (hl : ∀ x ∈ l, 0 ≤ x) (a : ℚ) :
    ∀ y ∈ cumsumFrom a l, a ≤ y := by
  induction l generalizing a with
  | nil => intro y hy; simp [cumsumFrom] at hy
  | cons x xs ih =>
    intro y hy
    simp only [cumsumFrom, List.mem_cons] at hy
    have hx : 0 ≤ x := hl x (List.mem_cons_self x xs)
    rcases hy with rfl | hy
    · linarith
    · have := ih (fun z hz => hl z (List.mem_cons_of_mem x hz)) (a + x) y hy
      linarith

/-- Running sums of non-negative terms are non-decreasing. -/
theorem cumsumFrom_chain' {l : List ℚ} (hl : ∀ x ∈ l, 0 ≤ x) (a : ℚ) :
    List.Chain' (· ≤ ·) (cumsumFrom a l) := by
  induction l generalizing a with
  | nil => simp [cumsumFrom]
  | cons x xs ih =>
    rw [cumsumFrom, List.chain'_cons']
    refine ⟨fun y hy => ?_, ih (fun z hz => hl z (List.mem_cons_of_mem x hz)) (a + x)⟩
    have hmem := List.mem_of_mem_head? hy
    exact cumsumFrom_le_mem (fun z hz => hl z (List.mem_cons_of_mem x hz)) (a + x) y hmem

/-- The last running sum over a nonempty list is the start value plus the
total. -/
theorem cumsumFrom_getLast?_cons (l : List ℚ) :
    ∀ a x : ℚ, (cumsumFrom a (x :: l)).getLast? = some (a + (x :: l).sum) := by
  induction l with
  | nil => intro a x; simp [cumsumFrom]
  | cons y ys ih =>
    intro a x
    show ((a + x) :: cumsumFrom (a + x) (y :: ys)).getLast? = some (a + (x :: y :: ys).sum)
    have hunf : cumsumFrom (a + x) (y :: ys) =
        ((a + x) + y) :: cumsumFrom ((a + x) + y) ys := rfl
    have h2 := ih (a + x) x
    rw [hunf, List.getLast?_cons_cons]
    have h3 := ih (a + x) y
    rw [hunf] at h3
    rw [h3]
    simp only [List.sum_cons, Option.some.injEq]
    ring

/-- The last running sum of a nonempty list equals the start plus the total. -/
theorem cumsumFrom_getLast? {l : List ℚ} (h : l ≠ []) (a : ℚ) :
    (cumsumFrom a l).getLast? = some (a + l.sum) := by
  cases l with
  | nil => exact absurd rfl h
  | cons x xs => exact cumsumFrom_getLast?_cons xs a x

/-- The maximum of a non-decreasing list is its last element. -/
theorem listMaxD_of_chain' {l : List ℚ} (h : List.Chain' (· ≤ ·) l) :
    listMaxD l = l.getLastD 0 := by
  induction l with
  | nil => rfl
  | cons x t ih =>
    cases t with
    | nil => rfl
    | cons y t2 =>
      rw [List.chain'_cons] at h
      have hxy : max x y = y := max_eq_right h.1
      have h1 : listMaxD (x :: y :: t2) = listMaxD (y :: t2) := by
        simp only [listMaxD, List.foldl_cons, hxy]
      rw [h1, List.getLastD_cons, ih h.2, List.getLastD_cons, List.getLastD_cons]

/-- Replicated zeros are (vacuously) non-decreasing. -/
theorem chain'_replicate_zero (n : ℕ) :
    List.Chain' (· ≤ ·) (List.replicate n (0 : ℚ)) := by
  induction n with
  | zero => simp
  | succ k ih =>
    rw [List.replicate_succ, List.chain'_cons']
    refine ⟨fun y hy => ?_, ih⟩
    have hmem := List.mem_of_mem_head? hy
    rw [List.eq_of_mem_replicate hmem]

/-- C7: for a charge/discharge subset sorted by elapsed time, the normalized
capacity curve is non-decreasing, starts at a value ≥ 0, ends at exactly 100
whenever the subset is nonempty with a positive cumulative current-time
integral, and is empty for an empty subset. -/
theorem normalize_capacity_curve (df : Table)
    (hsort : List.Chain' (· ≤ ·) (df.map Row.timeMin)) :
    List.Chain' (· ≤ ·) (normalize_capacity df) ∧
    (∀ x, (normalize_capacity df).head? = some x → 0 ≤ x) ∧
    (df ≠ [] → 0 < totalCapacityIntegral df →
      (normalize_capacity df).getLast? = some 100) ∧
    (df = [] → normalize_capacity df = []) := by
  have hdt := withTimeDiff_snd_nonneg hsort
  have hterms : ∀ x ∈ (withTimeDiff df).map (fun rc => |rc.1.crate| * rc.2), 0 ≤ x := by
    intro x hx
    obtain ⟨a, ha, rfl⟩ := List.mem_map.mp hx
    exact mul_nonneg (abs_nonneg _) (hdt a ha)
  have hcc : cumulativeCapacity df =
      cumsumFrom 0 ((withTimeDiff df).map (fun rc => |rc.1.crate| * rc.2)) := rfl
  have hcum_nonneg : ∀ y ∈ cumulativeCapacity df, 0 ≤ y := by
    intro y hy
    rw [hcc] at hy
    simpa using cumsumFrom_le_mem hterms 0 y hy
  have hchain_cum : List.Chain' (· ≤ ·) (cumulativeCapacity df) := by
    rw [hcc]
    exact cumsumFrom_chain' hterms 0
  cases df with
  | nil => exact ⟨by simp [normalize_capacity], by simp [normalize_capacity],
      fun h => absurd rfl h, fun _ => rfl⟩
  | cons r rs =>
    have hterms_ne : (withTimeDiff (r :: rs)).map (fun rc => |rc.1.crate| * rc.2) ≠ [] := by
      intro hh
      have hlen := congrArg List.length hh
      simp only [List.length_map, withTimeDiff_length, List.length_cons,
        List.length_nil] at hlen
      omega
    have hlast : (cumulativeCapacity (r :: rs)).getLast? =
        some (totalCapacityIntegral (r :: rs)) := by
      rw [hcc, cumsumFrom_getLast? hterms_ne 0]
      simp [totalCapacityIntegral]
    have hmax : listMaxD (cumulativeCapacity (r :: rs)) = totalCapacityIntegral (r :: rs) := by
      rw [listMaxD_of_chain' hchain_cum, List.getLastD_eq_getLast?, hlast]
      rfl
    have hnorm : normalize_capacity (r :: rs) =
        (if 0 < listMaxD (cumulativeCapacity (r :: rs)) then
          (cumulativeCapacity (r :: rs)).map
            (fun x => x / listMaxD (cumulativeCapacity (r :: rs)) * 100)
        else List.replicate (r :: rs).length 0) := rfl
    by_cases hpos : 0 < listMaxD (cumulativeCapacity (r :: rs))
    · rw [hnorm, if_pos hpos]
      refine ⟨?_, ?_, ?_, ?_⟩
      · rw [List.chain'_map]
        refine hchain_cum.imp ?_
        intro a b hab
        exact mul_le_mul_of_nonneg_right ((div_le_div_iff_of_pos_right hpos).mpr hab) (by norm_num)
      · intro x hx
        rw [List.head?_map] at hx
        cases hh : (cumulativeCapacity (r :: rs)).head? with
        | none => rw [hh] at hx; simp at hx
        | some c0 =>
          rw [hh] at hx
          simp only [Option.map_some', Option.some.injEq] at hx
          have hc0 : 0 ≤ c0 := hcum_nonneg c0 (List.mem_of_mem_head? hh)
          rw [← hx]
          exact mul_nonneg (div_nonneg hc0 (le_of_lt hpos)) (by norm_num)
      · intro _ _
        rw [List.getLast?_map, hlast]
        simp only [Option.map_some', Option.some.injEq]
        rw [← hmax, div_self (ne_of_gt hpos)]
        norm_num
      · intro h; exact absurd h (List.cons_ne_nil r rs)
    · rw [hnorm, if_neg hpos]
      refine ⟨chain'_replicate_zero _, ?_, ?_, ?_⟩
      · intro x hx
        rw [List.length_cons, List.replicate_succ] at hx
        simp only [List.head?_cons, Option.some.injEq] at hx
        rw [← hx]
      · intro _ htot
        rw [← hmax] at htot
        exact absurd htot hpos
      · intro h; exact absurd h (List.cons_ne_nil r rs)

/-- C7 witness: the normalized curve of a concrete sorted two-row discharge
subset ends at exactly 100. -/
theorem normalize_capacity_curve_witness :
    List.Chain' (· ≤ ·) (dfW.map Row.timeMin) ∧
    (normalize_capacity dfW).getLast? = some 100 := by
  have hs : List.Chain' (· ≤ ·) (dfW.map Row.timeMin) := by
    norm_num [dfW, List.chain'_cons, List.chain'_singleton]
  refine ⟨hs, (normalize_capacity_curve dfW hs).2.2.1 (by exact List.cons_ne_nil _ _) ?_⟩
  norm_num [totalCapacityIntegral, dfW, withTimeDiff, timeDiffs, diffAux]

/-- Sum of the second components of a constant-y point list. -/
theorem sum_map_snd_const {pts : List (ℚ × ℚ)} {c : ℚ} (h : ∀ p ∈ pts, p.2 = c) :
    (pts.map Prod.snd).sum = c * pts.length := by
  induction pts with
  | nil => simp
  | cons p ps ih =>
    simp only [List.map_cons, List.sum_cons, List.length_cons]
    rw [h p (List.mem_cons_self p ps), ih (fun q hq => h q (List.mem_cons_of_mem p hq))]
    push_cast
    ring

/-- Sum of x*y over a constant-y point list. -/
theorem sum_map_mul_const {pts : List (ℚ × ℚ)} {c : ℚ} (h : ∀ p ∈ pts, p.2 = c) :
    (pts.map (fun p => p.1 * p.2)).sum = c * (pts.map Prod.fst).sum := by
  induction pts with
  | nil => simp
  | cons p ps ih =>
    simp only [List.map_cons, List.sum_cons]
    rw [h p (List.mem_cons_self p ps), ih (fun q hq => h q (List.mem_cons_of_mem p hq))]
    ring

/-- A flat capacity series (constant y) has least-squares slope 0. -/
theorem linregressSlope_const {pts : List (ℚ × ℚ)} {c : ℚ}
    (h : ∀ p ∈ pts, p.2 = c) : linregressSlope pts = 0 := by
  simp only [linregressSlope]
  rw [sum_map_snd_const h, sum_map_mul_const h]
  have hz : (pts.length : ℚ) * (c * (pts.map Prod.fst).sum) -
      (pts.map Prod.fst).sum * (c * pts.length) = 0 := by ring
  rw [hz, zero_div]

/-- C5: lifecycle prediction returns the all-zero three-entry mapping
whenever initial capacity ≤ 0 or the fitted slope is non-negative — in
particular for any flat capacity series, whose least-squares slope is 0 —
and otherwise returns EOL capacity = 80% of initial, predicted EOL cycle =
int((eol − initial)/slope) solved from the fitted line (pyInt is Python's
truncation toward zero), and remaining cycles = max(0, predicted − last
observed cycle). -/
theorem predict_lifecycle_rule (rows : List (ℚ × ℚ)) (initial : ℚ)
    (lastRow : ℚ × ℚ) (hlast : rows.getLast? = some lastRow) :
    (∀ slope : ℚ, initial ≤ 0 ∨ 0 ≤ slope →
      predict_lifecycle rows initial slope =
        [("eol_capacity", 0), ("predicted_eol_cycle", 0), ("remaining_cycles", 0)]) ∧
    (∀ c : ℚ, (∀ p ∈ rows, p.2 = c) →
      predict_lifecycle rows initial (linregressSlope rows) =
        [("eol_capacity", 0), ("predicted_eol_cycle", 0), ("remaining_cycles", 0)]) ∧
    (∀ slope : ℚ, 0 < initial → slope < 0 →
      predict_lifecycle rows initial slope =
        [("eol_capacity", initial * (8 / 10)),
         ("predicted_eol_cycle", ((pyInt ((initial * (8 / 10) - initial) / slope) : ℤ) : ℚ)),
         ("current_cycle", lastRow.1),
         ("remaining_cycles",
           max 0 (((pyInt ((initial * (8 / 10) - initial) / slope) : ℤ) : ℚ) - lastRow.1))]) := by
  refine ⟨?_, ?_, ?_⟩
  · intro slope h
    simp only [predict_lifecycle]
    rw [if_pos h]
  · intro c h
    simp only [predict_lifecycle]
    rw [if_pos (Or.inr (le_of_eq (linregressSlope_const h).symm))]
  · intro slope hinit hslope
    have hcond : ¬ (initial ≤ 0 ∨ 0 ≤ slope) := by
      push_neg
      exact ⟨hinit, hslope⟩
    simp only [predict_lifecycle]
    rw [if_neg hcond, hlast]
    rfl

/-- C5 witness: the 2-point series (1, 100), (2, 90) has fitted slope −10;
the prediction is eol = 80, predicted EOL cycle = int((80−100)/−10) = 2,
current cycle 2, remaining = max(0, 2−2) = 0. -/
theorem predict_lifecycle_rule_witness :
    linregressSlope [((1 : ℚ), (100 : ℚ)), (2, 90)] = -10 ∧
    predict_lifecycle [((1 : ℚ), (100 : ℚ)), (2, 90)] 100 (-10) =
      [("eol_capacity", 80), ("predicted_eol_cycle", 2),
       ("current_cycle", 2), ("remaining_cycles", 0)] := by
  have hsl : linregressSlope [((1 : ℚ), (100 : ℚ)), (2, 90)] = -10 := by
    norm_num [linregressSlope]
  have h := (predict_lifecycle_rule [((1 : ℚ), (100 : ℚ)), (2, 90)] 100 (2, 90)
    rfl).2.2 (-10) (by norm_num) (by norm_num)
  refine ⟨hsl, ?_⟩
  rw [h]
  norm_num [pyInt]

/-- C10: the degenerate branch of lifecycle prediction returns exactly the
keys eol_capacity, predicted_eol_cycle, remaining_cycles and no
current_cycle key, while the other branch adds current_cycle; the summary
report's unconditional current_cycle read therefore raises KeyError on the
degenerate mapping and succeeds on the other. -/
theorem predict_lifecycle_keys (rows : List (ℚ × ℚ)) (initial slope : ℚ) :
    (initial ≤ 0 ∨ 0 ≤ slope →
      ((predict_lifecycle rows initial slope).map Prod.fst =
          ["eol_capacity", "predicted_eol_cycle", "remaining_cycles"] ∧
        (predict_lifecycle rows initial slope).lookup "current_cycle" = none ∧
        summary_report_lifecycle_fields (predict_lifecycle rows initial slope) =
          .error "current_cycle")) ∧
    (0 < initial → slope < 0 →
      ((predict_lifecycle rows initial slope).map Prod.fst =
          ["eol_capacity", "predicted_eol_cycle", "current_cycle", "remaining_cycles"] ∧
        ∃ v, summary_report_lifecycle_fields (predict_lifecycle rows initial slope) =
          .ok v)) := by
  constructor
  · intro h
    simp only [predict_lifecycle]
    rw [if_pos h]
    exact ⟨rfl, rfl, rfl⟩
  · intro hinit hslope
    have hcond : ¬ (initial ≤ 0 ∨ 0 ≤ slope) := by
      push_neg
      exact ⟨hinit, hslope⟩
    simp only [predict_lifecycle]
    rw [if_neg hcond]
    exact ⟨rfl, ⟨_, rfl⟩⟩

/-- C10 witness: at a flat/degenerate input the mapping has the three keys
and the report read fails with KeyError on current_cycle; at the fading
fixture the mapping has four keys and the read succeeds. -/
theorem predict_lifecycle_keys_witness :
    ((predict_lifecycle [] 0 0).map Prod.fst =
        ["eol_capacity", "predicted_eol_cycle", "remaining_cycles"] ∧
      (predict_lifecycle [] 0 0).lookup "current_cycle" = none ∧
      summary_report_lifecycle_fields (predict_lifecycle [] 0 0) =
        .error "current_cycle") ∧
    ((predict_lifecycle [((1 : ℚ), (100 : ℚ)), (2, 90)] 100 (-10)).map Prod.fst =
        ["eol_capacity", "predicted_eol_cycle", "current_cycle", "remaining_cycles"] ∧
      ∃ v, summary_report_lifecycle_fields
        (predict_lifecycle [((1 : ℚ), (100 : ℚ)), (2, 90)] 100 (-10)) = .ok v) :=
  ⟨(predict_lifecycle_keys [] 0 0).1 (Or.inl le_rfl),
   (predict_lifecycle_keys [((1 : ℚ), (100 : ℚ)), (2, 90)] 100 (-10)).2
     (by norm_num) (by norm_num)⟩

/-- Shifting by 0 leaves a table unchanged. -/
theorem shiftTable_zero (t : Table) : shiftTable 0 t = t := by
  unfold shiftTable
  conv_rhs => rw [← List.map_id t]
  refine List.map_congr_left ?_
  intro r _
  cases r
  simp

/-- The TimeMin column of a shifted table. -/
theorem shiftTable_map_timeMin (dt : ℚ) (t : Table) :
    (shiftTable dt t).map Row.timeMin = (t.map Row.timeMin).map (fun x => x + dt) := by
  simp only [shiftTable, List.map_map]
  rfl

/-- Shifting preserves length. -/
theorem shiftTable_length (dt : ℚ) (t : Table) :
    (shiftTable dt t).length = t.length := by
  simp [shiftTable]

/-- A left max-fold dominates its starting value. -/
theorem foldl_max_init_le (a : ℚ) (l : List ℚ) : a ≤ l.foldl max a := by
  induction l generalizing a with
  | nil => exact le_refl a
  | cons x xs ih => exact le_trans (le_max_left a x) (ih (max a x))

/-- A left max-fold dominates every list element. -/
theorem mem_le_foldl_max (a : ℚ) (l : List ℚ) : ∀ x ∈ l, x ≤ l.foldl max a := by
  induction l generalizing a with
  | nil => intro x hx; simp at hx
  | cons y ys ih =>
    intro x hx
    rcases List.mem_cons.mp hx with rfl | hx
    · exact le_trans (le_max_right a x) (foldl_max_init_le (max a x) ys)
    · exact ih (max a y) x hx

/-- listMaxD dominates every element. -/
theorem mem_le_listMaxD {l : List ℚ} : ∀ x ∈ l, x ≤ listMaxD l := by
  cases l with
  | nil => intro x hx; simp at hx
  | cons y ys =>
    intro x hx
    rcases List.mem_cons.mp hx with rfl | hx
    · exact foldl_max_init_le x ys
    · exact mem_le_foldl_max y ys x hx

/-- The pandas column max of a nonempty table is its listMaxD. -/
theorem tableMaxTime_of_ne_nil {t : Table} (h : t ≠ []) :
    tableMaxTime t = some (listMaxD (t.map Row.timeMin)) := by
  cases t with
  | nil => exact absurd rfl h
  | cons r rs => rfl

/-- A get_cycle_range loop iteration from a numeric cumulative_time ≥ 0 on a
nonempty table appends the table shifted by that value and continues with the
shifted table's max. -/
theorem rangeStep_some {m : ℚ} (hm : 0 ≤ m) (acc : List Table) {t : Table}
    (ht : t ≠ []) :
    rangeStep (acc, some m) t =
      (acc ++ [shiftTable m t],
       some (listMaxD ((shiftTable m t).map Row.timeMin))) := by
  have hshift_ne : shiftTable m t ≠ [] := by
    intro hh
    exact ht (List.map_eq_nil_iff.mp hh)
  rcases lt_or_eq_of_le hm with hpos | hzero
  · simp only [rangeStep]
    rw [if_pos hpos, tableMaxTime_of_ne_nil hshift_ne]
  · simp only [rangeStep]
    rw [if_neg (by rw [← hzero]; exact lt_irrefl 0)]
    rw [← hzero, shiftTable_zero, tableMaxTime_of_ne_nil ht]

/-- The get_cycle_range fold from a numeric non-negative cumulative_time
produces exactly the claim-side running-maximum shifts. -/
theorem foldl_rangeStep_eq_runningMaxJoin :
    ∀ (ts : List Table), (∀ t ∈ ts, GoodTable t) →
    ∀ (m : ℚ), 0 ≤ m → ∀ (acc : List Table),
      (ts.foldl rangeStep (acc, some m)).1 = acc ++ runningMaxJoin m ts := by
  intro ts
  induction ts with
  | nil => intro _ m _ acc; simp [runningMaxJoin]
  | cons t ts ih =>
    intro hgood m hm acc
    obtain ⟨hsort_t, hnn_t, hne_t⟩ := hgood t (List.mem_cons_self t ts)
    rw [List.foldl_cons, rangeStep_some hm acc hne_t]
    have hmM : m ≤ listMaxD ((shiftTable m t).map Row.timeMin) := by
      obtain ⟨r0, hr0⟩ := List.exists_mem_of_ne_nil t hne_t
      have hmem : r0.timeMin + m ∈ (shiftTable m t).map Row.timeMin := by
        rw [shiftTable_map_timeMin]
        exact List.mem_map.mpr ⟨r0.timeMin, List.mem_map.mpr ⟨r0, hr0, rfl⟩, rfl⟩
      have h1 : m ≤ r0.timeMin + m := by
        have := hnn_t r0 hr0
        linarith
      exact le_trans h1 (mem_le_listMaxD _ hmem)
    have h0M : 0 ≤ listMaxD ((shiftTable m t).map Row.timeMin) := le_trans hm hmM
    rw [ih (fun u hu => hgood u (List.mem_cons_of_mem t hu)) _ h0M]
    simp only [runningMaxJoin]
    rw [max_eq_right hmM]
    simp [List.append_assoc]

/-- The flattened running-maximum join of well-formed tables has a
non-decreasing TimeMin column, all of it at or above the running maximum. -/
theorem runningMaxJoin_chain' :
    ∀ (ts : List Table), (∀ t ∈ ts, GoodTable t) → ∀ (m : ℚ), 0 ≤ m →
      List.Chain' (· ≤ ·) (((runningMaxJoin m ts).flatten).map Row.timeMin) ∧
      (∀ x ∈ ((runningMaxJoin m ts).flatten).map Row.timeMin, m ≤ x) := by
  intro ts
  induction ts with
  | nil =>
    intro _ m _
    constructor
    · simp [runningMaxJoin]
    · intro x hx; simp [runningMaxJoin] at hx
  | cons t ts ih =>
    intro hgood m hm
    obtain ⟨hsort_t, hnn_t, hne_t⟩ := hgood t (List.mem_cons_self t ts)
    simp only [runningMaxJoin, List.flatten_cons, List.map_append]
    have htimes2 : (shiftTable m t).map Row.timeMin =
        (t.map Row.timeMin).map (fun x => x + m) := shiftTable_map_timeMin m t
    have hchain2 : List.Chain' (· ≤ ·) ((shiftTable m t).map Row.timeMin) := by
      rw [htimes2, List.chain'_map]
      exact hsort_t.imp (fun a b hab => add_le_add_right hab m)
    have hge_m : ∀ x ∈ (shiftTable m t).map Row.timeMin, m ≤ x := by
      intro x hx
      rw [htimes2] at hx
      obtain ⟨y, hy, rfl⟩ := List.mem_map.mp hx
      obtain ⟨r, hr, rfl⟩ := List.mem_map.mp hy
      have := hnn_t r hr
      linarith
    have hle_M2 : ∀ x ∈ (shiftTable m t).map Row.timeMin,
        x ≤ listMaxD ((shiftTable m t).map Row.timeMin) := mem_le_listMaxD
    have hmM : m ≤ max m (listMaxD ((shiftTable m t).map Row.timeMin)) := le_max_left _ _
    have h0M : 0 ≤ max m (listMaxD ((shiftTable m t).map Row.timeMin)) :=
      le_trans hm hmM
    have ihM := ih (fun u hu => hgood u (List.mem_cons_of_mem t hu)) _ h0M
    constructor
    · rw [List.chain'_append]
      refine ⟨hchain2, ihM.1, ?_⟩
      intro x hx y hy
      have hxmem := List.mem_of_mem_getLast? hx
      have hymem := List.mem_of_mem_head? hy
      have hx_le := hle_M2 x hxmem
      have hy_ge := ihM.2 y hymem
      have hM_le : listMaxD ((shiftTable m t).map Row.timeMin) ≤
          max m (listMaxD ((shiftTable m t).map Row.timeMin)) := le_max_right _ _
      linarith
    · intro x hx
      rcases List.mem_append.mp hx with hx | hx
      · exact hge_m x hx
      · exact le_trans hmM (ihM.2 x hx)

/-- The running-maximum join preserves each table's row count. -/
theorem runningMaxJoin_lengths :
    ∀ (ts : List Table) (m : ℚ),
      (runningMaxJoin m ts).map List.length = ts.map List.length := by
  intro ts
  induction ts with
  | nil => intro m; rfl
  | cons t ts ih =>
    intro m
    simp only [runningMaxJoin, List.map_cons, shiftTable_length, ih]

/-- Every table found in a range window of a container satisfying the stored
invariants is well-formed. -/
theorem foundTables_good (c : Container) (s e : ℕ)
    (hsorted : ∀ n t, lookupCycle c n = some t → List.Chain' (· ≤ ·) (t.map Row.timeMin))
    (hnonneg : ∀ n t, lookupCycle c n = some t → ∀ r ∈ t, 0 ≤ r.timeMin)
    (hne : ∀ n t, lookupCycle c n = some t → t ≠ []) :
    ∀ t ∈ foundTables c s e, GoodTable t := by
  intro t ht
  obtain ⟨n, _, hlk⟩ := List.mem_filterMap.mp ht
  exact ⟨hsorted n t hlk, hnonneg n t hlk, hne n t hlk⟩

/-- C3: get_cycle_range fails with the empty-range error exactly when no
cycle in [s, e] is loaded; on success the output is the concatenation, in
cycle-number order, of the loaded tables each shifted by the running maximum
elapsed time of all tables appended so far, its row count is the sum of
those tables' row counts, and (the stored tables being sorted, non-negative
and nonempty) its elapsed-time column is non-decreasing throughout — in
particular across every concatenation boundary. -/
theorem get_cycle_range_spec (c : Container) (s e : ℕ)
    (hsorted : ∀ n t, lookupCycle c n = some t → List.Chain' (· ≤ ·) (t.map Row.timeMin))
    (hnonneg : ∀ n t, lookupCycle c n = some t → ∀ r ∈ t, 0 ≤ r.timeMin)
    (hne : ∀ n t, lookupCycle c n = some t → t ≠ []) :
    (get_cycle_range c s e = .error (s, e) ↔ foundTables c s e = []) ∧
    (∀ t, get_cycle_range c s e = .ok t →
      t = (runningMaxJoin 0 (foundTables c s e)).flatten ∧
      t.length = ((foundTables c s e).map List.length).sum ∧
      List.Chain' (· ≤ ·) (t.map Row.timeMin)) := by
  have hgood := foundTables_good c s e hsorted hnonneg hne
  have hfold : ((foundTables c s e).foldl rangeStep ([], some 0)).1 =
      runningMaxJoin 0 (foundTables c s e) := by
    simpa using foldl_rangeStep_eq_runningMaxJoin _ hgood 0 le_rfl []
  have hiff : runningMaxJoin 0 (foundTables c s e) = [] ↔ foundTables c s e = [] := by
    cases hf : foundTables c s e with
    | nil => simp [runningMaxJoin]
    | cons t ts =>
      simp only [runningMaxJoin]
      constructor
      · intro h; exact absurd h (List.cons_ne_nil _ _)
      · intro h; exact absurd h (List.cons_ne_nil _ _)
  constructor
  · simp only [get_cycle_range, hfold]
    by_cases hfnil : foundTables c s e = []
    · rw [if_pos (hiff.mpr hfnil)]
      simp [hfnil]
    · rw [if_neg (fun hh => hfnil (hiff.mp hh))]
      constructor
      · intro h; exact absurd h (by simp)
      · intro h; exact absurd h hfnil
  · intro t ht
    simp only [get_cycle_range, hfold] at ht
    by_cases hfnil : foundTables c s e = []
    · rw [if_pos (hiff.mpr hfnil)] at ht
      exact absurd ht (by simp)
    · rw [if_neg (fun hh => hfnil (hiff.mp hh))] at ht
      have heq : (runningMaxJoin 0 (foundTables c s e)).flatten = t := by
        simpa using ht
      refine ⟨heq.symm, ?_, ?_⟩
      · rw [← heq, List.length_flatten, runningMaxJoin_lengths]
      · rw [← heq]
        exact (runningMaxJoin_chain' _ hgood 0 le_rfl).1

/-- The fixture container's lookup table. -/
theorem lookupCycle_containerC3 (n : ℕ) :
    lookupCycle containerC3 n =
      if n = 1 then some [⟨0, 4, 1⟩, ⟨5, 3, -1⟩]
      else if n = 2 then some [⟨0, 4, 1⟩, ⟨3, 3, -1⟩] else none := by
  by_cases h1 : n = 1
  · subst h1; rfl
  · by_cases h2 : n = 2
    · subst h2; rfl
    · rw [if_neg h1, if_neg h2]
      have h1' : ((1 : ℕ) == n) = false := beq_eq_false_iff_ne.mpr (fun hh => h1 hh.symm)
      have h2' : ((2 : ℕ) == n) = false := beq_eq_false_iff_ne.mpr (fun hh => h2 hh.symm)
      simp [lookupCycle, containerC3, List.find?, h1', h2']

/-- C3 witness: on the fixture container (cycles 1 and 2 loaded), the empty
window [3, 4] fails with the empty-range error, while [1, 2] returns cycle 1
followed by cycle 2 shifted forward by 5 (cycle 1's maximum elapsed time);
the output has 2 + 2 rows and a non-decreasing TimeMin column. -/
theorem get_cycle_range_spec_witness :
    get_cycle_range containerC3 3 4 = .error (3, 4) ∧
    get_cycle_range containerC3 1 2 =
      .ok [⟨0, 4, 1⟩, ⟨5, 3, -1⟩, ⟨5, 4, 1⟩, ⟨8, 3, -1⟩] ∧
    ([⟨0, 4, 1⟩, ⟨5, 3, -1⟩, ⟨5, 4, 1⟩, ⟨8, 3, -1⟩] : Table).length =
      ((foundTables containerC3 1 2).map List.length).sum ∧
    List.Chain' (· ≤ ·)
      (([⟨0, 4, 1⟩, ⟨5, 3, -1⟩, ⟨5, 4, 1⟩, ⟨8, 3, -1⟩] : Table).map Row.timeMin) := by
  have hs : ∀ n t, lookupCycle containerC3 n = some t →
      List.Chain' (· ≤ ·) (t.map Row.timeMin) := by
    intro n t h
    rw [lookupCycle_containerC3] at h
    split_ifs at h
    · cases h; norm_num [List.chain'_cons, List.chain'_singleton]
    · cases h; norm_num [List.chain'_cons, List.chain'_singleton]
  have hn : ∀ n t, lookupCycle containerC3 n = some t → ∀ r ∈ t, 0 ≤ r.timeMin := by
    intro n t h
    rw [lookupCycle_containerC3] at h
    split_ifs at h
    · cases h
      intro r hr
      simp only [List.mem_cons, List.not_mem_nil, or_false] at hr
      rcases hr with rfl | rfl <;> norm_num
    · cases h
      intro r hr
      simp only [List.mem_cons, List.not_mem_nil, or_false] at hr
      rcases hr with rfl | rfl <;> norm_num
  have hnn : ∀ n t, lookupCycle containerC3 n = some t → t ≠ [] := by
    intro n t h
    rw [lookupCycle_containerC3] at h
    split_ifs at h
    · cases h; exact List.cons_ne_nil _ _
    · cases h; exact List.cons_ne_nil _ _
  have h34 := get_cycle_range_spec containerC3 3 4 hs hn hnn
  have h12 := get_cycle_range_spec containerC3 1 2 hs hn hnn
  have hfound34 : foundTables containerC3 3 4 = [] := by
    norm_num [foundTables, List.range', lookupCycle_containerC3]
  have hfound12 : foundTables containerC3 1 2 =
      [[⟨0, 4, 1⟩, ⟨5, 3, -1⟩], [⟨0, 4, 1⟩, ⟨3, 3, -1⟩]] := by
    norm_num [foundTables, List.range', List.filterMap_cons, lookupCycle_containerC3]
  have hok : get_cycle_range containerC3 1 2 =
      .ok [⟨0, 4, 1⟩, ⟨5, 3, -1⟩, ⟨5, 4, 1⟩, ⟨8, 3, -1⟩] := by
    simp only [get_cycle_range, hfound12]
    norm_num [rangeStep, tableMaxTime, shiftTable, max_def, List.foldl_cons,
      List.foldl_nil, List.flatten]
    intro hcontra
    exact absurd hcontra (List.cons_ne_nil _ _)
  exact ⟨h34.1.mpr hfound34, hok, (h12.2 _ hok).2.1, (h12.2 _ hok).2.2⟩

/-- getD is unchanged at indices other than the one set. -/
theorem getD_set_ne {α : Type} (l : List α) {i j : ℕ} (a d : α) (h : i ≠ j) :
    (l.set i a).getD j d = l.getD j d := by
  rw [List.getD_eq_getElem?_getD, List.getD_eq_getElem?_getD, List.getElem?_set_ne h]

/-- Allocating a fresh table leaves every existing table reference intact. -/
theorem readTable_allocTable (h : Alias.Heap) (t : Table) {r : ℕ}
    (hr : r < h.tables.length) :
    Alias.readTable (Alias.allocTable h t).1 r = Alias.readTable h r := by
  simp only [Alias.readTable, Alias.allocTable]
  exact List.getD_append _ _ _ _ hr

/-- A heap extended by appends preserves every dereference below the old
length. -/
theorem readTable_append (h : Alias.Heap) (ext : List Table) {r : ℕ}
    (hr : r < h.tables.length) :
    ({ h with tables := h.tables ++ ext } : Alias.Heap).lists = h.lists ∧
    Alias.readTable { h with tables := h.tables ++ ext } r = Alias.readTable h r := by
  refine ⟨rfl, ?_⟩
  simp only [Alias.readTable]
  exact List.getD_append _ _ _ _ hr

/-- The get_cycles heap fold only appends table objects and never touches
list objects. -/
theorem getCyclesFold_extends (c : Alias.ContainerH) :
    ∀ (ns : List ℕ) (acc : Alias.Heap × List (ℕ × ℕ) × List ℕ),
      (∃ ext, (ns.foldl (Alias.getCyclesStepH c) acc).1.tables = acc.1.tables ++ ext) ∧
      (ns.foldl (Alias.getCyclesStepH c) acc).1.lists = acc.1.lists := by
  intro ns
  induction ns with
  | nil => intro acc; exact ⟨⟨[], by simp⟩, rfl⟩
  | cons n ns ih =>
    intro acc
    rw [List.foldl_cons]
    cases hn : Alias.lookupRef c n with
    | some tr =>
      have hstep : Alias.getCyclesStepH c acc n =
          ((Alias.allocTable acc.1 (Alias.readTable acc.1 tr)).1,
           acc.2.1 ++ [(n, (Alias.allocTable acc.1 (Alias.readTable acc.1 tr)).2)],
           acc.2.2) := by
        simp only [Alias.getCyclesStepH, hn]
      rw [hstep]
      obtain ⟨⟨ext, hext⟩, hlists⟩ := ih _
      refine ⟨⟨[Alias.readTable acc.1 tr] ++ ext, ?_⟩, hlists⟩
      rw [hext]
      simp [Alias.allocTable, List.append_assoc]
    | none =>
      have hstep : Alias.getCyclesStepH c acc n = (acc.1, acc.2.1, acc.2.2 ++ [n]) := by
        simp only [Alias.getCyclesStepH, hn]
      rw [hstep]
      exact ih _

/-- C9 counterexample: get_metadata returns a shallow dict copy, so the
returned mapping's loaded_cycles entry is the same list object the container
stores; appending to it through the returned mapping changes the stored
metadata's loaded-cycles content from [1] to [1, 99]. -/
theorem get_metadata_shallow_copy_aliases :
    (Alias.get_metadata_h heapC9 containerC9).2.loadedCycles =
      containerC9.meta.loadedCycles ∧
    Alias.readList heapC9 containerC9.meta.loadedCycles = [1] ∧
    Alias.readList
      (Alias.writeList heapC9
        (Alias.get_metadata_h heapC9 containerC9).2.loadedCycles [1, 99])
      containerC9.meta.loadedCycles = [1, 99] :=
  ⟨rfl, rfl, rfl⟩

/-- Every table reference the get_cycles heap fold returns is either one it
already held or at least the starting heap size (each copy is allocated at
the then-current end of the heap). -/
theorem getCyclesFold_refs_lower (c : Alias.ContainerH) :
    ∀ (ns : List ℕ) (acc : Alias.Heap × List (ℕ × ℕ) × List ℕ),
      ∀ q ∈ (ns.foldl (Alias.getCyclesStepH c) acc).2.1,
        q ∈ acc.2.1 ∨ acc.1.tables.length ≤ q.2 := by
  intro ns
  induction ns with
  | nil => intro acc q hq; exact Or.inl hq
  | cons n ns ih =>
    intro acc q hq
    rw [List.foldl_cons] at hq
    cases hn : Alias.lookupRef c n with
    | some tr =>
      have hstep : Alias.getCyclesStepH c acc n =
          ((Alias.allocTable acc.1 (Alias.readTable acc.1 tr)).1,
           acc.2.1 ++ [(n, (Alias.allocTable acc.1 (Alias.readTable acc.1 tr)).2)],
           acc.2.2) := by
        simp only [Alias.getCyclesStepH, hn]
      rw [hstep] at hq
      have hlen : (Alias.allocTable acc.1 (Alias.readTable acc.1 tr)).1.tables.length =
          acc.1.tables.length + 1 := by
        simp [Alias.allocTable]
      rcases ih _ q hq with hmem | hge
      · rcases List.mem_append.mp hmem with h1 | h2
        · exact Or.inl h1
        · refine Or.inr ?_
          have hq2 : q = (n, (Alias.allocTable acc.1 (Alias.readTable acc.1 tr)).2) := by
            simpa using h2
          rw [hq2]
          simp [Alias.allocTable]
      · refine Or.inr ?_
        rw [hlen] at hge
        omega
    | none =>
      have hstep : Alias.getCyclesStepH c acc n = (acc.1, acc.2.1, acc.2.2 ++ [n]) := by
        simp only [Alias.getCyclesStepH, hn]
      rw [hstep] at hq
      exact ih (acc.1, acc.2.1, acc.2.2 ++ [n]) q hq

/-- C9 (amended): on a well-formed container state, every read operation
leaves all stored table objects and all list objects unchanged; the table
references get_cycle, get_cycles and get_cycle_range return are fresh
(distinct from every stored reference) and mutating any returned copy leaves
every stored table unchanged; and get_metadata leaves the heap untouched
while returning the stored metadata value — whose loaded-cycles list object
it shares, per the counterexample. -/
theorem container_reads_immutable (h : Alias.Heap) (c : Alias.ContainerH)
    (hwf : Alias.WF h c) :
    (∀ n, (Alias.get_cycle_h h c n).1.lists = h.lists ∧
      (∀ p ∈ c.cycles, Alias.readTable (Alias.get_cycle_h h c n).1 p.2 =
        Alias.readTable h p.2) ∧
      (∀ r2, (Alias.get_cycle_h h c n).2 = .ok r2 →
        (∀ p ∈ c.cycles, p.2 ≠ r2) ∧
        (∀ t', ∀ p ∈ c.cycles,
          Alias.readTable (Alias.writeTable (Alias.get_cycle_h h c n).1 r2 t') p.2 =
            Alias.readTable h p.2))) ∧
    (∀ ns, (Alias.get_cycles_h h c ns).1.lists = h.lists ∧
      (∀ p ∈ c.cycles, Alias.readTable (Alias.get_cycles_h h c ns).1 p.2 =
        Alias.readTable h p.2) ∧
      (∀ rs, (Alias.get_cycles_h h c ns).2 = .ok rs →
        ∀ q ∈ rs, (∀ p ∈ c.cycles, p.2 ≠ q.2) ∧
          (∀ t', ∀ p ∈ c.cycles,
            Alias.readTable (Alias.writeTable (Alias.get_cycles_h h c ns).1 q.2 t') p.2 =
              Alias.readTable h p.2))) ∧
    (∀ s e, (Alias.get_cycle_range_h h c s e).1.lists = h.lists ∧
      (∀ p ∈ c.cycles, Alias.readTable (Alias.get_cycle_range_h h c s e).1 p.2 =
        Alias.readTable h p.2) ∧
      (∀ r2, (Alias.get_cycle_range_h h c s e).2 = .ok r2 →
        (∀ p ∈ c.cycles, p.2 ≠ r2) ∧
        (∀ t', ∀ p ∈ c.cycles,
          Alias.readTable
            (Alias.writeTable (Alias.get_cycle_range_h h c s e).1 r2 t') p.2 =
            Alias.readTable h p.2))) ∧
    ((Alias.get_metadata_h h c).1 = h ∧
      (Alias.get_metadata_h h c).2 = c.meta) := by
  obtain ⟨hwf_tables, _⟩ := hwf
  refine ⟨?_, ?_, ?_, rfl, rfl⟩
  · intro n
    cases hl : Alias.lookupRef c n with
    | none =>
      have hh : Alias.get_cycle_h h c n = (h, .error n) := by
        simp only [Alias.get_cycle_h, hl]
      rw [hh]
      exact ⟨rfl, fun p _ => rfl, fun r2 hr2 => by simp at hr2⟩
    | some r =>
      have hh : Alias.get_cycle_h h c n =
          ((Alias.allocTable h (Alias.readTable h r)).1,
           .ok (Alias.allocTable h (Alias.readTable h r)).2) := by
        simp only [Alias.get_cycle_h, hl]
      rw [hh]
      refine ⟨rfl, ?_, ?_⟩
      · intro p hp
        exact readTable_allocTable h _ (hwf_tables p hp)
      · intro r2 hr2
        simp only [Except.ok.injEq] at hr2
        have hfresh : ∀ p ∈ c.cycles, p.2 ≠ r2 := by
          intro p hp
          rw [← hr2]
          have := hwf_tables p hp
          simp only [Alias.allocTable]
          omega
        refine ⟨hfresh, ?_⟩
        intro t' p hp
        have hne2 : r2 ≠ p.2 := fun hh2 => hfresh p hp hh2.symm
        simp only [Alias.writeTable, Alias.readTable, Alias.allocTable]
        rw [List.getD_eq_getElem?_getD, List.getElem?_set_ne hne2,
          ← List.getD_eq_getElem?_getD]
        exact List.getD_append _ _ _ _ (hwf_tables p hp)
  · intro ns
    obtain ⟨⟨ext, hext⟩, hlists⟩ := getCyclesFold_extends c ns (h, [], [])
    have hheap : (Alias.get_cycles_h h c ns).1 =
        (ns.foldl (Alias.getCyclesStepH c) (h, [], [])).1 := by
      simp only [Alias.get_cycles_h]
      split <;> rfl
    have htab : (Alias.get_cycles_h h c ns).1.tables = h.tables ++ ext := by
      rw [hheap, hext]
    refine ⟨?_, ?_, ?_⟩
    · rw [hheap]
      exact hlists
    · intro p hp
      simp only [Alias.readTable, htab]
      exact List.getD_append _ _ _ _ (hwf_tables p hp)
    · intro rs hrs q hq
      have hrs' : rs = (ns.foldl (Alias.getCyclesStepH c) (h, [], [])).2.1 := by
        simp only [Alias.get_cycles_h] at hrs
        split at hrs
        · simp only [Except.ok.injEq] at hrs
          exact hrs.symm
        · simp at hrs
      have hlow := getCyclesFold_refs_lower c ns (h, [], []) q
        (by rw [← hrs']; exact hq)
      rcases hlow with hmem | hge
      · simp at hmem
      · have hge' : h.tables.length ≤ q.2 := hge
        have hfresh : ∀ p ∈ c.cycles, p.2 ≠ q.2 := by
          intro p hp
          have := hwf_tables p hp
          omega
        refine ⟨hfresh, ?_⟩
        intro t' p hp
        have hne2 : q.2 ≠ p.2 := fun hh => hfresh p hp hh.symm
        simp only [Alias.writeTable, Alias.readTable, htab]
        rw [List.getD_eq_getElem?_getD, List.getElem?_set_ne hne2,
          ← List.getD_eq_getElem?_getD]
        exact List.getD_append _ _ _ _ (hwf_tables p hp)
  · intro s e
    simp only [Alias.get_cycle_range_h]
    split
    · refine ⟨rfl, fun p _ => rfl, ?_⟩
      intro r2 hr2
      simp at hr2
    · refine ⟨rfl, ?_, ?_⟩
      · intro p hp
        exact readTable_allocTable h _ (hwf_tables p hp)
      · intro r2 hr2
        have hr2' : h.tables.length = r2 := by simpa [Alias.allocTable] using hr2
        have hfresh : ∀ p ∈ c.cycles, p.2 ≠ r2 := by
          intro p hp
          have := hwf_tables p hp
          omega
        refine ⟨hfresh, ?_⟩
        intro t' p hp
        have hne2 : r2 ≠ p.2 := fun hh => hfresh p hp hh.symm
        simp only [Alias.writeTable, Alias.readTable, Alias.allocTable]
        rw [List.getD_eq_getElem?_getD, List.getElem?_set_ne hne2,
          ← List.getD_eq_getElem?_getD]
        exact List.getD_append _ _ _ _ (hwf_tables p hp)

/-- C9 amended witness: the fixture state is well-formed; get_metadata leaves
the heap untouched, and after get_cycle 1 the stored table at reference 0
still dereferences to its original contents. -/
theorem container_reads_immutable_witness :
    Alias.WF heapC9 containerC9 ∧
    (Alias.get_metadata_h heapC9 containerC9).1 = heapC9 ∧
    Alias.readTable (Alias.get_cycle_h heapC9 containerC9 1).1 0 =
      Alias.readTable heapC9 0 := by
  have hwf : Alias.WF heapC9 containerC9 := by
    constructor
    · intro p hp
      simp only [containerC9, List.mem_singleton] at hp
      subst hp
      simp [heapC9]
    · simp [heapC9, containerC9]
  have h := container_reads_immutable heapC9 containerC9 hwf
  exact ⟨hwf, h.2.2.2.1, (h.1 1).2.1 (1, 0) (by simp [containerC9])⟩

/-- C3 counterexample: in a container whose stored tables are all sorted
with non-negative elapsed times — but where cycle 2's table is empty —
get_cycle_range(1, 3) emits the elapsed times [0, 5, 0, 3]: after the empty
table, cumulative_time is pandas' NaN max, NaN > 0 is false, so cycle 3 is
never shifted and the output decreases at that boundary, refuting the
claimed non-decreasing elapsed-time column under the claim's stated
(sorted, non-negative) conditions. Prepending 0 to each stored time column
states sortedness together with non-negativity binder-free. -/
theorem get_cycle_range_nan_gap_not_monotone :
    List.Chain' (· ≤ ·)
      ((0 : ℚ) :: ([⟨0, 4, 1⟩, ⟨5, 3, -1⟩] : Table).map Row.timeMin) ∧
    List.Chain' (· ≤ ·) ((0 : ℚ) :: ([] : Table).map Row.timeMin) ∧
    List.Chain' (· ≤ ·)
      ((0 : ℚ) :: ([⟨0, 4, 1⟩, ⟨3, 3, -1⟩] : Table).map Row.timeMin) ∧
    get_cycle_range containerC3gap 1 3 =
      .ok [⟨0, 4, 1⟩, ⟨5, 3, -1⟩, ⟨0, 4, 1⟩, ⟨3, 3, -1⟩] ∧
    ¬ List.Chain' (· ≤ ·)
      (([⟨0, 4, 1⟩, ⟨5, 3, -1⟩, ⟨0, 4, 1⟩, ⟨3, 3, -1⟩] : Table).map Row.timeMin) := by
  have hfound : foundTables containerC3gap 1 3 =
      [[⟨0, 4, 1⟩, ⟨5, 3, -1⟩], [], [⟨0, 4, 1⟩, ⟨3, 3, -1⟩]] := rfl
  refine ⟨?_, ?_, ?_, ?_, ?_⟩
  · norm_num [List.chain'_cons, List.chain'_singleton]
  · norm_num [List.chain'_singleton]
  · norm_num [List.chain'_cons, List.chain'_singleton]
  · simp only [get_cycle_range, hfound]
    norm_num [rangeStep, tableMaxTime, shiftTable, max_def, List.foldl_cons,
      List.foldl_nil, List.flatten]
    intro hcontra
    exact absurd hcontra (List.cons_ne_nil _ _)
  · intro h
    have h' : List.Chain' (· ≤ ·) ([0, 5, 0, 3] : List ℚ) := by simpa using h
    simp only [List.chain'_cons, List.chain'_singleton, and_true] at h'
    norm_num at h'

end BattAnalyzer
